import Mathlib

/-!
Verification of the blocking-elements engine (`src/blocking-elements.js`).

The development shallowly embeds the engine: DOM documents become finite
association tables over numeric element ids, the engine state (`Sys`) carries
the blocking stack, the memoized top-element parents, the already-inert set,
and the per-element side tables (`_siblingsToRestore`, `_parentMO`), and each
method of the `BlockingElements` class becomes an executable Lean function.
JS exceptions are modelled by returning an `Option String` error component.
-/

namespace BlockingElements

abbrev ElemId := Nat

/-- Ordered insertion into a list acting as a JS `Set` (membership-based,
insertion ordered, no duplicates introduced). -/
def addUniq (l : List ElemId) (e : ElemId) : List ElemId :=
  if e ∈ l then l else l ++ [e]

/-- A DOM document: finite association tables describing the tree structure
(ordered element children, parent node, local name, shadow-tree data).
`fuel` bounds tree walks, standing for the finite height of a real document. -/
structure Doc where
  body : ElemId
  childrenA : List (ElemId × List ElemId)
  parentA : List (ElemId × ElemId)
  tagA : List (ElemId × String)
  nonElems : List ElemId
  hostA : List (ElemId × ElemId)
  assignedSlotA : List (ElemId × ElemId)
  dipA : List (ElemId × List ElemId)
  shadowRootA : List (ElemId × ElemId)
  slotsA : List (ElemId × List ElemId)
  assignedA : List (ElemId × List ElemId)
  contentsA : List (ElemId × List ElemId)
  distNodesA : List (ElemId × List ElemId)
  fuel : Nat
deriving Repr, DecidableEq

/-- The ordered element children of a node (`node.children`). -/
def Doc.childrenOf (d : Doc) (e : ElemId) : List ElemId :=
  (d.childrenA.lookup e).getD []

/-- The parent node (`node.parentNode`), `none` meaning `null`. -/
def Doc.parentNode (d : Doc) (e : ElemId) : Option ElemId :=
  d.parentA.lookup e

/-- The local name (`node.localName`), defaulting to a generic tag. -/
def Doc.localName (d : Doc) (e : ElemId) : String :=
  (d.tagA.lookup e).getD "div"

/-- Whether the node has `nodeType === Node.ELEMENT_NODE`; shadow roots are
listed in `nonElems`. -/
def Doc.isElem (d : Doc) (e : ElemId) : Bool :=
  decide (e ∉ d.nonElems)

/-- The shadow host of a shadow-root node (`node.host`). -/
def Doc.host (d : Doc) (e : ElemId) : Option ElemId :=
  d.hostA.lookup e

/-- The slot a node is assigned into (`node.assignedSlot`, shadow DOM v1). -/
def Doc.assignedSlot (d : Doc) (e : ElemId) : Option ElemId :=
  d.assignedSlotA.lookup e

/-- The result of `node.getDestinationInsertionPoints()` (shadow DOM v0). -/
def Doc.insertionPoints (d : Doc) (e : ElemId) : List ElemId :=
  (d.dipA.lookup e).getD []

/-- The shadow root attached to an element (`element.shadowRoot`). -/
def Doc.shadowRoot (d : Doc) (e : ElemId) : Option ElemId :=
  d.shadowRootA.lookup e

/-- The result of `shadowRoot.querySelectorAll('slot')`. -/
def Doc.slotsIn (d : Doc) (sr : ElemId) : List ElemId :=
  (d.slotsA.lookup sr).getD []

/-- The result of `slot.assignedNodes({flatten: true})`. -/
def Doc.assignedNodes (d : Doc) (slot : ElemId) : List ElemId :=
  (d.assignedA.lookup slot).getD []

/-- The result of `shadowRoot.querySelectorAll('content')`. -/
def Doc.contentsIn (d : Doc) (sr : ElemId) : List ElemId :=
  (d.contentsA.lookup sr).getD []

/-- The result of `content.getDistributedNodes()`. -/
def Doc.distributedNodes (d : Doc) (content : ElemId) : List ElemId :=
  (d.distNodesA.lookup content).getD []

/-- Source `[_isInertable]`: an element is inertable unless its local name
matches the regex for style, template or script containers. -/
def isInertable (d : Doc) (e : ElemId) : Bool :=
  !(d.localName e = "style" || d.localName e = "template" ||
    d.localName e = "script")

/-- The chain of slots obtained by repeatedly following `assignedSlot`,
starting from (and including) the given slot. -/
def slotChain (d : Doc) : Nat → ElemId → List ElemId
  | 0, s => [s]
  | fuel + 1, s =>
    match d.assignedSlot s with
    | none => [s]
    | some s2 => s :: slotChain d fuel s2

/-- The loop body of the source `[_getParents]`: walk upward from `current`,
collecting element nodes, redirecting through assigned slots (shadow DOM v1)
or destination insertion points (shadow DOM v0), up to (excluding) the
document body. -/
def getParentsAux (d : Doc) : Nat → Option ElemId → List ElemId → List ElemId
  | _, none, acc => acc
  | 0, some _, acc => acc
  | fuel + 1, some c, acc =>
    if c = d.body then acc
    else
      let acc1 := if d.isElem c then acc ++ [c] else acc
      match d.assignedSlot c with
      | some s =>
        let chain := slotChain d fuel s
        getParentsAux d fuel chain.getLast? (acc1 ++ chain.dropLast)
      | none =>
        let ips := d.insertionPoints c
        if ips ≠ [] then
          getParentsAux d fuel ips.getLast? (acc1 ++ ips.dropLast)
        else
          getParentsAux d fuel
            (match d.parentNode c with
             | some p => some p
             | none => d.host c) acc1

/-- Source `[_getParents]`: the list of parents of an element, starting from
the element itself (included) up to the document body (excluded). -/
def getParents (d : Doc) (e : ElemId) : List ElemId :=
  getParentsAux d d.fuel (some e) []

/-- Source `[_getDistributedChildren]`: the distributed children of the
element's shadow root, or `none` if the element has no shadow root. -/
def getDistributedChildren (d : Doc) (e : ElemId) : Option (List ElemId) :=
  match d.shadowRoot e with
  | none => none
  | some sr =>
    let slots := d.slotsIn sr
    if slots ≠ [] then
      some (((slots.map (d.assignedNodes)).flatten).filter (d.isElem))
    else
      some (((d.contentsIn sr).map (d.distributedNodes)).flatten.filter (d.isElem))

/-- The complete mutable state: the document tree together with the per-element
inert flags, the engine's blocking stack (`this[_blockingElements]`), the
memoized top-element parents (`this[_topElParents]`), the already-inert set
(`this[_alreadyInertElements]`), the `_siblingsToRestore` side table (a present
binding models a non-null set) and the set of elements whose `_parentMO`
observer is installed. -/
structure Sys where
  doc : Doc
  inerts : List ElemId
  blocking : List ElemId
  topElParents : List ElemId
  alreadyInert : List ElemId
  sets : List (ElemId × List ElemId)
  mo : List ElemId
deriving Repr, DecidableEq

/-- Whether an element's inert flag is set. -/
def isInert (s : Sys) (e : ElemId) : Bool :=
  decide (e ∈ s.inerts)

/-- Write an element's inert flag (`element.inert = b`). -/
def setInert (s : Sys) (e : ElemId) (b : Bool) : Sys :=
  { s with inerts := if b then addUniq s.inerts e else s.inerts.filter (· != e) }

/-- Read the `_siblingsToRestore` side table; `none` models a null/absent set. -/
def setsGet (s : Sys) (e : ElemId) : Option (List ElemId) :=
  s.sets.lookup e

/-- Write the `_siblingsToRestore` side table. -/
def setsPut (s : Sys) (e : ElemId) (v : Option (List ElemId)) : Sys :=
  { s with sets :=
      match v with
      | some l => (e, l) :: s.sets.filter (fun p => p.1 != e)
      | none => s.sets.filter (fun p => p.1 != e) }

/-- Install a `_parentMO` observer handle on an element. -/
def moAdd (s : Sys) (e : ElemId) : Sys :=
  { s with mo := addUniq s.mo e }

/-- Clear an element's `_parentMO` observer handle. -/
def moRemove (s : Sys) (e : ElemId) : Sys :=
  { s with mo := s.mo.filter (· != e) }

/-- The `top` getter: last stack entry or `null`. -/
def Sys.top (s : Sys) : Option ElemId :=
  s.blocking.getLast?

/-- The `has` method: stack membership. -/
def has (s : Sys) (e : ElemId) : Bool :=
  decide (e ∈ s.blocking)

/-- Whether a sibling is in the skip set (`toSkip && toSkip.has(sibling)`). -/
def skipHas (toSkip : Option (List ElemId)) (e : ElemId) : Bool :=
  match toSkip with
  | some ts => decide (e ∈ ts)
  | none => false

/-- The children of an element's parent node (`element.parentNode.children`),
empty when the parent is null (which a real document never produces here). -/
def siblingsScan (d : Doc) (element : ElemId) : List ElemId :=
  match d.parentNode element with
  | some p => d.childrenOf p
  | none => []

/-- The inner loop of the source `[_inertSiblings]`: scan the given children,
skipping the element itself, non-inertable siblings and the skip set; with
`useKeep` (the `toKeepInert` argument passed), already inert siblings are
collected into the already-inert set, otherwise each surviving sibling is made
inert and accumulated into the inerted-siblings set being built. -/
def scanChildren (element : ElemId) (toSkip : Option (List ElemId))
    (useKeep : Bool) : Sys → List ElemId → List ElemId → Sys × List ElemId
  | s, [], inerted => (s, inerted)
  | s, sibling :: rest, inerted =>
    if sibling = element ∨ isInertable s.doc sibling = false ∨
        skipHas toSkip sibling = true then
      scanChildren element toSkip useKeep s rest inerted
    else if useKeep = true ∧ isInert s sibling = true then
      scanChildren element toSkip useKeep
        { s with alreadyInert := addUniq s.alreadyInert sibling } rest inerted
    else
      scanChildren element toSkip useKeep (setInert s sibling true) rest
        (inerted ++ [sibling])

/-- The per-element body of the source `[_inertSiblings]`: scan the element's
siblings, store the inerted set into the element's `_siblingsToRestore`, and
install a mutation observer on the element's parent. -/
def inertSiblingsStep (toSkip : Option (List ElemId)) (useKeep : Bool)
    (s : Sys) (element : ElemId) : Sys :=
  let r := scanChildren element toSkip useKeep s (siblingsScan s.doc element) []
  moAdd (setsPut r.1 element (some r.2)) element

/-- Source `[_inertSiblings]`. -/
def inertSiblings (s : Sys) (elements : List ElemId)
    (toSkip : Option (List ElemId)) (useKeep : Bool) : Sys :=
  match elements with
  | [] => s
  | el :: rest =>
    inertSiblings (inertSiblingsStep toSkip useKeep s el) rest toSkip useKeep

/-- The `for sibling of el[_siblingsToRestore]` loop body: clear the inert
flag of every listed sibling. -/
def uninertAll (s : Sys) (sibs : List ElemId) : Sys :=
  sibs.foldl (fun acc sib => setInert acc sib false) s

/-- The per-element body of the source `[_restoreInertedSiblings]`: disconnect
and clear the element's observer, un-inert every recorded sibling, and null the
element's `_siblingsToRestore`. -/
def restoreOne (s : Sys) (el : ElemId) : Sys :=
  let s1 := moRemove s el
  let sibs := (setsGet s1 el).getD []
  let s2 := uninertAll s1 sibs
  setsPut s2 el none

/-- Source `[_restoreInertedSiblings]`. -/
def restoreInertedSiblings (s : Sys) (elements : List ElemId) : Sys :=
  match elements with
  | [] => s
  | el :: rest => restoreInertedSiblings (restoreOne s el) rest

/-- Source `[_swapInertedSibling]`: swap inertness between two sibling
elements, transferring the old sibling's `_siblingsToRestore` set and observer
to the new one. -/
def swapInertedSibling (s : Sys) (oldInert newInert : ElemId) : Sys :=
  let str := (setsGet s oldInert).getD []
  let r1 :=
    if isInertable s.doc oldInert = true ∧ isInert s oldInert = false then
      (setInert s oldInert true, addUniq str oldInert)
    else (s, str)
  let r2 :=
    if newInert ∈ r1.2 then
      (setInert r1.1 newInert false, r1.2.erase newInert)
    else r1
  let s3 :=
    if oldInert ∈ r2.1.mo then moAdd (moRemove r2.1 oldInert) newInert
    else moRemove (moRemove r2.1 oldInert) newInert
  setsPut (setsPut s3 newInert (some r2.2)) oldInert none

/-- The index walk of the source `[_topChanged]`: starting from the last
indices, step both indices down while both are positive and the entries agree
(find the common parent; index 0 is the element itself, so stop before it). -/
def diffWalk (old new : List ElemId) : Nat → Nat → Nat × Nat
  | 0, j => (0, j)
  | i + 1, 0 => (i + 1, 0)
  | i + 1, j + 1 =>
    if old.getD (i + 1) 0 = new.getD (j + 1) 0 then diffWalk old new i j
    else (i + 1, j + 1)

/-- Source `[_topChanged]`: sets inert on all document elements except the new
top element, its parents and its distributed content.  A `some` error models
the thrown `Error('Non-connected element cannot be a blocking element')` (or
the TypeError a JS run raises when the computed parents list is empty); on an
error the state is returned exactly as it was when the exception fired. -/
def topChanged : Sys → Option ElemId → Sys × Option String
  | s, none =>
    ({ restoreInertedSiblings s s.topElParents with
        alreadyInert := [], topElParents := [] }, none)
  | s, some nt =>
    let oldParents := s.topElParents
    let newParents := getParents s.doc nt
    match newParents.getLast? with
    | none => (s, some "TypeError")
    | some lastEl =>
      if s.doc.parentNode lastEl ≠ some s.doc.body then
        (s, some "Non-connected element cannot be a blocking element")
      else
        let s1 := { s with topElParents := newParents }
        let toSkip := getDistributedChildren s1.doc nt
        if oldParents = [] then
          (inertSiblings s1 newParents toSkip true, none)
        else
          let ij := diffWalk oldParents newParents
            (oldParents.length - 1) (newParents.length - 1)
          let s2 :=
            if oldParents.getD ij.1 0 ≠ newParents.getD ij.2 0 then
              swapInertedSibling s1 (oldParents.getD ij.1 0)
                (newParents.getD ij.2 0)
            else s1
          let s3 :=
            if ij.1 > 0 then restoreInertedSiblings s2 (oldParents.take ij.1)
            else s2
          let s4 :=
            if ij.2 > 0 then inertSiblings s3 (newParents.take ij.2) toSkip false
            else s3
          (s4, none)

/-- The `remove` method: remove the element wherever it is in the stack,
recomputing the top only when the removed element was the top.  Returns the
removal flag and propagates any exception from the top recomputation. -/
def remove (s : Sys) (element : ElemId) : Sys × Bool × Option String :=
  match s.blocking.findIdx? (· == element) with
  | none => (s, false, none)
  | some i =>
    let s1 := { s with blocking := s.blocking.eraseIdx i }
    if i = s1.blocking.length then
      let r := topChanged s1 s1.top
      (r.1, true, r.2)
    else (s1, true, none)

/-- The `push` method: a no-op when the element is already the top; otherwise
remove the element from the stack (bringing it to the top), recompute
inertness for it and append it.  An exception from the recomputation leaves the
stack without the appended entry. -/
def push (s : Sys) (element : ElemId) : Sys × Option String :=
  if s.top = some element then (s, none)
  else
    let r1 := remove s element
    match r1.2.2 with
    | some e => (r1.1, some e)
    | none =>
      let r2 := topChanged r1.1 (some element)
      match r2.2 with
      | some e => (r2.1, some e)
      | none => ({ r2.1 with blocking := r2.1.blocking ++ [element] }, none)

/-- The `pop` method: remove and return the current top, if any. -/
def pop (s : Sys) : Sys × Option ElemId × Option String :=
  match s.top with
  | none => (s, none, none)
  | some t =>
    let r := remove s t
    (r.1, some t, r.2.2)

/-- One `MutationRecord` delivered to the observer callback: the observed
parent and its removed and added direct children. -/
structure MRecord where
  target : ElemId
  removedNodes : List ElemId
  addedNodes : List ElemId
deriving Repr, DecidableEq

/-- The level element whose siblings a record concerns: `parents[idx - 1]`
where `idx` is `parents.length` for the body or `parents.indexOf(target)`.
`none` models the out-of-range accesses a JS run would crash on. -/
def trackedChildFor (s : Sys) (target : ElemId) : Option ElemId :=
  if target = s.doc.body then s.topElParents.getLast?
  else
    match s.topElParents.findIdx? (· == target) with
    | some k => if k = 0 then none else s.topElParents.get? (k - 1)
    | none => none

/-- The removed-nodes loop of the source `[_handleMutations]`: un-inert and
drop each removed sibling found in the level's inerted set; when the removed
node is the tracked level element itself, pop the top blocking element and
signal the early return from the whole callback. -/
def handleRemovedLoop (s : Sys) (inertedChild : ElemId) :
    List ElemId → Sys × Bool × Option String
  | [] => (s, false, none)
  | sib :: rest =>
    if sib = inertedChild then
      let r := pop s
      (r.1, true, r.2.2)
    else
      let sibs := (setsGet s inertedChild).getD []
      if sib ∈ sibs then
        let s1 := setInert s sib false
        let s2 := setsPut s1 inertedChild (some (sibs.erase sib))
        handleRemovedLoop s2 inertedChild rest
      else handleRemovedLoop s inertedChild rest

/-- The added-nodes loop of the source `[_handleMutations]`: skip non-inertable
nodes, record nodes that arrive already inert into the already-inert set, and
otherwise inert the node and add it to the level's inerted set. -/
def handleAddedLoop (s : Sys) (inertedChild : ElemId) :
    List ElemId → Sys
  | [] => s
  | sibling :: rest =>
    if isInertable s.doc sibling = false then
      handleAddedLoop s inertedChild rest
    else if isInert s sibling = true then
      handleAddedLoop
        { s with alreadyInert := addUniq s.alreadyInert sibling }
        inertedChild rest
    else
      let s1 := setInert s sibling true
      let s2 := setsPut s1 inertedChild
        (some (addUniq ((setsGet s1 inertedChild).getD []) sibling))
      handleAddedLoop s2 inertedChild rest

/-- Source `[_handleMutations]`: process the records of one notification batch
in order; a record that reports the removal of the tracked level element pops
the top blocking element and returns from the callback at once, abandoning the
remaining records. -/
def handleMutations (s : Sys) : List MRecord → Sys × Option String
  | [] => (s, none)
  | m :: rest =>
    match trackedChildFor s m.target with
    | none => (s, some "TypeError")
    | some inertedChild =>
      let r := handleRemovedLoop s inertedChild m.removedNodes
      if r.2.1 then (r.1, r.2.2)
      else
        let s2 := handleAddedLoop r.1 inertedChild m.addedNodes
        handleMutations s2 rest

/-- The `push` of the earlier variant implementations (the stack component of
`src/unnamed/part_000`): when the node is already anywhere in the stack, warn
and leave everything unchanged (that branch of the variant touches no other
state); otherwise append.  The returned flag records that the warning fired. -/
def variantPush (blocking : List ElemId) (node : ElemId) :
    List ElemId × Bool :=
  if node ∈ blocking then (blocking, true)
  else (blocking ++ [node], false)

/-- External DOM edit (environment, not engine code): detach a child from a
parent, as `parent.removeChild(child)` performed by outside code. -/
def docDetach (s : Sys) (p c : ElemId) : Sys :=
  { s with doc :=
      { s.doc with
        childrenA := s.doc.childrenA.map
          (fun b => if b.1 = p then (b.1, b.2.filter (· != c)) else b),
        parentA := s.doc.parentA.filter (fun b => b.1 != c) } }

/-- External DOM edit (environment, not engine code): append a child to a
parent, as `parent.appendChild(child)` performed by outside code. -/
def docAppend (s : Sys) (p c : ElemId) : Sys :=
  { s with doc :=
      { s.doc with
        childrenA :=
          if (s.doc.childrenA.lookup p).isSome then
            s.doc.childrenA.map
              (fun b => if b.1 = p then (b.1, b.2 ++ [c]) else b)
          else s.doc.childrenA ++ [(p, [c])],
        parentA := (c, p) :: s.doc.parentA.filter (fun b => b.1 != c) } }

/-- One step of the whole system: an engine call, a delivered mutation batch,
or an external DOM edit.  Exceptions abandon the rest of the call, leaving the
state the call had built so far. -/
inductive Op where
  | opPush (e : ElemId)
  | opRemove (e : ElemId)
  | opPop
  | opMutations (ms : List MRecord)
  | opDetach (p c : ElemId)
  | opAppend (p c : ElemId)
deriving Repr, DecidableEq

/-- Apply one step to the state (discarding return values and error signals,
which leave no further trace on the state). -/
def stepOp (s : Sys) : Op → Sys
  | .opPush e => (push s e).1
  | .opRemove e => (remove s e).1
  | .opPop => (pop s).1
  | .opMutations ms => (handleMutations s ms).1
  | .opDetach p c => docDetach s p c
  | .opAppend p c => docAppend s p c

/-- Run a sequence of steps. -/
def run (s : Sys) : List Op → Sys
  | [] => s
  | op :: rest => run (stepOp s op) rest

/-- The connectivity check of `[_topChanged]` as a predicate: the computed
parents list is nonempty and its last entry's parent node is the document
body.  `push` throws exactly when this is false. -/
def connectedToBody (d : Doc) (e : ElemId) : Bool :=
  match (getParents d e).getLast? with
  | none => false
  | some lastEl => d.parentNode lastEl = some d.body

/-- A pristine engine: the state before any push (fresh constructor run). -/
def pristine (s : Sys) : Prop :=
  s.blocking = [] ∧ s.topElParents = [] ∧ s.alreadyInert = [] ∧
  s.sets = [] ∧ s.mo = []

/-- Whether `x` is one of the siblings the `[_inertSiblings]` scan of level
element `el` acts on: a child of `el`'s parent other than `el` itself,
inertable, and not in the skip set. -/
def scannedSiblingAt (d : Doc) (toSkip : Option (List ElemId))
    (el x : ElemId) : Bool :=
  decide (x ∈ siblingsScan d el) && !(x == el) && isInertable d x &&
    !(skipHas toSkip x)

/-- The nodes reachable from a node by following children, with fuel. -/
def descendantsAux (d : Doc) : Nat → ElemId → List ElemId
  | 0, e => [e]
  | fuel + 1, e =>
    e :: ((d.childrenOf e).map (descendantsAux d fuel)).flatten

/-- Whether an element is reachable from the document root. -/
def reachableFromRoot (d : Doc) (x : ElemId) : Bool :=
  decide (x ∈ descendantsAux d d.fuel d.body)

section PreservationLemmas

@[simp] theorem setInert_doc (s : Sys) (e : ElemId) (b : Bool) :
    (setInert s e b).doc = s.doc := rfl

@[simp] theorem setInert_blocking (s : Sys) (e : ElemId) (b : Bool) :
    (setInert s e b).blocking = s.blocking := rfl

@[simp] theorem setInert_topElParents (s : Sys) (e : ElemId) (b : Bool) :
    (setInert s e b).topElParents = s.topElParents := rfl

@[simp] theorem setInert_sets (s : Sys) (e : ElemId) (b : Bool) :
    (setInert s e b).sets = s.sets := rfl

@[simp] theorem setInert_mo (s : Sys) (e : ElemId) (b : Bool) :
    (setInert s e b).mo = s.mo := rfl

@[simp] theorem setInert_alreadyInert (s : Sys) (e : ElemId) (b : Bool) :
    (setInert s e b).alreadyInert = s.alreadyInert := rfl

@[simp] theorem setsPut_doc (s : Sys) (e : ElemId) (v : Option (List ElemId)) :
    (setsPut s e v).doc = s.doc := by
  cases v <;> rfl

@[simp] theorem setsPut_blocking (s : Sys) (e : ElemId)
    (v : Option (List ElemId)) : (setsPut s e v).blocking = s.blocking := by
  cases v <;> rfl

@[simp] theorem setsPut_topElParents (s : Sys) (e : ElemId)
    (v : Option (List ElemId)) :
    (setsPut s e v).topElParents = s.topElParents := by
  cases v <;> rfl

@[simp] theorem setsPut_inerts (s : Sys) (e : ElemId)
    (v : Option (List ElemId)) : (setsPut s e v).inerts = s.inerts := by
  cases v <;> rfl

@[simp] theorem setsPut_mo (s : Sys) (e : ElemId) (v : Option (List ElemId)) :
    (setsPut s e v).mo = s.mo := by
  cases v <;> rfl

@[simp] theorem setsPut_alreadyInert (s : Sys) (e : ElemId)
    (v : Option (List ElemId)) :
    (setsPut s e v).alreadyInert = s.alreadyInert := by
  cases v <;> rfl

@[simp] theorem moAdd_doc (s : Sys) (e : ElemId) : (moAdd s e).doc = s.doc :=
  rfl

@[simp] theorem moAdd_blocking (s : Sys) (e : ElemId) :
    (moAdd s e).blocking = s.blocking := rfl

@[simp] theorem moAdd_topElParents (s : Sys) (e : ElemId) :
    (moAdd s e).topElParents = s.topElParents := rfl

@[simp] theorem moAdd_inerts (s : Sys) (e : ElemId) :
    (moAdd s e).inerts = s.inerts := rfl

@[simp] theorem moAdd_sets (s : Sys) (e : ElemId) :
    (moAdd s e).sets = s.sets := rfl

@[simp] theorem moAdd_alreadyInert (s : Sys) (e : ElemId) :
    (moAdd s e).alreadyInert = s.alreadyInert := rfl

@[simp] theorem moRemove_doc (s : Sys) (e : ElemId) :
    (moRemove s e).doc = s.doc := rfl

@[simp] theorem moRemove_blocking (s : Sys) (e : ElemId) :
    (moRemove s e).blocking = s.blocking := rfl

@[simp] theorem moRemove_topElParents (s : Sys) (e : ElemId) :
    (moRemove s e).topElParents = s.topElParents := rfl

@[simp] theorem moRemove_inerts (s : Sys) (e : ElemId) :
    (moRemove s e).inerts = s.inerts := rfl

@[simp] theorem moRemove_sets (s : Sys) (e : ElemId) :
    (moRemove s e).sets = s.sets := rfl

@[simp] theorem moRemove_alreadyInert (s : Sys) (e : ElemId) :
    (moRemove s e).alreadyInert = s.alreadyInert := rfl

@[simp] theorem setsGet_setInert (s : Sys) (e x : ElemId) (b : Bool) :
    setsGet (setInert s x b) e = setsGet s e := rfl

@[simp] theorem setsGet_moAdd (s : Sys) (e x : ElemId) :
    setsGet (moAdd s x) e = setsGet s e := rfl

@[simp] theorem setsGet_moRemove (s : Sys) (e x : ElemId) :
    setsGet (moRemove s x) e = setsGet s e := rfl

@[simp] theorem isInert_setsPut (s : Sys) (e x : ElemId)
    (v : Option (List ElemId)) : isInert (setsPut s e v) x = isInert s x := by
  unfold isInert
  rw [setsPut_inerts]

@[simp] theorem isInert_moAdd (s : Sys) (e x : ElemId) :
    isInert (moAdd s e) x = isInert s x := rfl

@[simp] theorem isInert_moRemove (s : Sys) (e x : ElemId) :
    isInert (moRemove s e) x = isInert s x := rfl

end PreservationLemmas

section ListLemmas

theorem lookup_filter_ne {α : Type} (l : List (ElemId × α)) (a b : ElemId)
    (h : b ≠ a) :
    (l.filter (fun p => p.1 != a)).lookup b = l.lookup b := by
  induction l with
  | nil => rfl
  | cons hd tl ih =>
    by_cases hhd : hd.1 = a
    · have : (hd.1 != a) = false := by simp [hhd]
      simp only [List.filter_cons, this, Bool.false_eq_true, if_false]
      rw [ih]
      have hb : (b == hd.1) = false := by
        rw [hhd, beq_eq_false_iff_ne]
        exact h
      rw [show hd = (hd.1, hd.2) from rfl, List.lookup_cons, hb]
    · have : (hd.1 != a) = true := by simp [hhd]
      simp only [List.filter_cons, this, if_true]
      rw [show hd = (hd.1, hd.2) from rfl, List.lookup_cons, List.lookup_cons]
      cases hbe : b == hd.1 <;> simp [ih]

theorem findIdx?_beq_of_not_mem (l : List ElemId) (e : ElemId) (h : e ∉ l) :
    l.findIdx? (· == e) = none := by
  rw [List.findIdx?_eq_none_iff]
  intro x hx
  simp only [beq_eq_false_iff_ne, ne_eq]
  intro hxe
  exact h (hxe ▸ hx)

end ListLemmas

/-! Concrete documents used by witnesses and counterexamples. -/

/-- A six-element document: body 0 with children 1 and 2; element 1 contains
element 3; element 2 contains elements 4 and 5. -/
def exDoc : Doc :=
  { body := 0
    childrenA := [(0, [1, 2]), (1, [3]), (2, [4, 5])]
    parentA := [(1, 0), (2, 0), (3, 1), (4, 2), (5, 2)]
    tagA := []
    nonElems := []
    hostA := []
    assignedSlotA := []
    dipA := []
    shadowRootA := []
    slotsA := []
    assignedA := []
    contentsA := []
    distNodesA := []
    fuel := 10 }

/-- A four-element document: body 0 with children 1 and 2; element 1 contains
element 3. -/
def exDoc2 : Doc :=
  { body := 0
    childrenA := [(0, [1, 2]), (1, [3])]
    parentA := [(1, 0), (2, 0), (3, 1)]
    tagA := []
    nonElems := []
    hostA := []
    assignedSlotA := []
    dipA := []
    shadowRootA := []
    slotsA := []
    assignedA := []
    contentsA := []
    distNodesA := []
    fuel := 10 }

/-- A pristine engine over `exDoc2` with no element inert. -/
def exSysClean2 : Sys :=
  { doc := exDoc2, inerts := [], blocking := [], topElParents := [],
    alreadyInert := [], sets := [], mo := [] }

/-- A pristine engine over `exDoc` with element 5 inert from the start. -/
def exSys0 : Sys :=
  { doc := exDoc, inerts := [5], blocking := [], topElParents := [],
    alreadyInert := [], sets := [], mo := [] }

/-- A pristine engine over `exDoc` with no element inert. -/
def exSysClean : Sys :=
  { doc := exDoc, inerts := [], blocking := [], topElParents := [],
    alreadyInert := [], sets := [], mo := [] }

/-- C2: pushing the element that is already the top of the stack is a complete
no-op: the returned state is the input state (same stack, same flags, same
bookkeeping — no inertness recomputation happened) and no error is raised. -/
theorem c2_push_top_noop (s : Sys) (e : ElemId) (h : s.top = some e) :
    push s e = (s, none) := by
  unfold push
  rw [if_pos h]

/-- A state over `exDoc` whose stack top is element 3. -/
def c2_state : Sys :=
  { doc := exDoc, inerts := [2], blocking := [3], topElParents := [3, 1],
    alreadyInert := [], sets := [(1, [2]), (3, [])], mo := [3, 1] }

/-- A state over `exDoc` with stack [1, 2, 3]. -/
def c6_state : Sys :=
  { doc := exDoc, inerts := [], blocking := [1, 2, 3],
    topElParents := [3, 1], alreadyInert := [], sets := [(1, []), (3, [])],
    mo := [3, 1] }

/-- Witness for `c2_push_top_noop` at a concrete state. -/
theorem c2_witness :
    c2_state.top = some 3 ∧ push c2_state 3 = (c2_state, none) :=
  ⟨by decide, c2_push_top_noop c2_state 3 (by decide)⟩

/-- Helper: removing an entry found strictly below the top only splices the
stack — no top recomputation runs. -/
theorem remove_mid (s : Sys) (e : ElemId) (i : Nat)
    (hf : s.blocking.findIdx? (· == e) = some i)
    (hi : i + 1 < s.blocking.length) :
    remove s e = ({ s with blocking := s.blocking.eraseIdx i }, true, none) := by
  unfold remove
  rw [hf]
  have hlt : i < s.blocking.length := by omega
  have hlen : (s.blocking.eraseIdx i).length = s.blocking.length - 1 := by
    rw [List.length_eraseIdx, if_pos hlt]
  have hne : ¬ (i = (s.blocking.eraseIdx i).length) := by
    rw [hlen]; omega
  simp only [hne, if_false]

/-- Helper: removing an absent element is a complete no-op returning false. -/
theorem remove_absent (s : Sys) (e : ElemId) (h : e ∉ s.blocking) :
    remove s e = (s, false, none) := by
  unfold remove
  rw [findIdx?_beq_of_not_mem _ _ h]

/-- C6: removing a stack entry other than the top deletes exactly that entry
from the stack and returns true, with no inertness recomputation: the flags,
the tracked parents, the already-inert set, the per-level sets and the
observers are all untouched.  Removing an element not in the stack returns
false and changes nothing at all. -/
theorem c6_remove_frame (s : Sys) (e : ElemId) :
    (∀ i, s.blocking.findIdx? (· == e) = some i →
      i + 1 < s.blocking.length →
      remove s e = ({ s with blocking := s.blocking.eraseIdx i }, true, none)) ∧
    (e ∉ s.blocking → remove s e = (s, false, none)) :=
  ⟨fun i hf hi => remove_mid s e i hf hi, fun h => remove_absent s e h⟩

/-- Witness for `c6_remove_frame` at a concrete state: element 1 sits below
the top of the stack [1, 2, 3]; element 9 is absent. -/
theorem c6_witness :
    remove c6_state 1 = ({ c6_state with blocking := [2, 3] }, true, none) ∧
    remove c6_state 9 = (c6_state, false, none) := by
  refine ⟨?_, (c6_remove_frame c6_state 9).2 (by decide)⟩
  exact (c6_remove_frame c6_state 1).1 0 (by decide) (by decide)

/-- The state for C3's counterexample: push(3), then push(4), then element 3
is detached from its parent by external code, unobserved (its parent is not
watched once 4 is the top).  Element 3 is now a disconnected entry sitting
below the top of the stack. -/
def c3_state : Sys := docDetach (push (push exSys0 3).1 4).1 1 3

/-- C3 counterexample: pushing the disconnected element 3, which is still in
the stack below the top, raises the non-connected error but does NOT leave the
stack as it was: the entry 3 has been removed by the time the error fires. -/
theorem c3_counterexample :
    connectedToBody c3_state.doc 3 = false ∧
    c3_state.blocking = [3, 4] ∧
    (push c3_state 3).2 =
      some "Non-connected element cannot be a blocking element" ∧
    (push c3_state 3).1.blocking = [4] := by decide

/-- C3 amended: pushing a disconnected element that is NOT currently in the
stack raises the non-connected error and leaves the entire state unchanged.
(If the disconnected element is in the stack below the top it is removed from
the stack before the error fires, and if it is the top the push silently
no-ops, as the counterexample shows.) -/
theorem c3_amended (s : Sys) (e : ElemId)
    (hconn : connectedToBody s.doc e = false)
    (hpath : getParents s.doc e ≠ [])
    (habs : e ∉ s.blocking) :
    push s e =
      (s, some "Non-connected element cannot be a blocking element") := by
  have htop : ¬ (s.top = some e) := by
    intro h
    apply habs
    unfold Sys.top at h
    rcases List.getLast?_eq_some_iff.mp h with ⟨ys, hys⟩
    rw [hys]
    simp
  unfold push
  rw [if_neg htop]
  unfold remove
  rw [findIdx?_beq_of_not_mem _ _ habs]
  simp only []
  unfold topChanged
  unfold connectedToBody at hconn
  cases hlast : (getParents s.doc e).getLast? with
  | none =>
    exact absurd (List.getLast?_eq_none_iff.mp hlast) hpath
  | some lastEl =>
    rw [hlast] at hconn
    have hne : s.doc.parentNode lastEl ≠ some s.doc.body := by
      simpa using hconn
    simp only [hlast, hne, ne_eq, not_false_eq_true, if_true]

/-- Witness for `c3_amended`: a fresh element 9 with no parent is disconnected
and absent from the stack. -/
theorem c3_witness :
    push exSys0 9 =
      (exSys0, some "Non-connected element cannot be a blocking element") :=
  c3_amended exSys0 9 (by decide) (by decide) (by decide)

section EnginePreservation

theorem scanChildren_preserves (el : ElemId) (ts : Option (List ElemId))
    (k : Bool) :
    ∀ (children : List ElemId) (s : Sys) (inerted : List ElemId),
      ((scanChildren el ts k s children inerted).1).doc = s.doc ∧
      ((scanChildren el ts k s children inerted).1).blocking = s.blocking ∧
      ((scanChildren el ts k s children inerted).1).topElParents =
        s.topElParents ∧
      ((scanChildren el ts k s children inerted).1).sets = s.sets ∧
      ((scanChildren el ts k s children inerted).1).mo = s.mo := by
  intro children
  induction children with
  | nil =>
    intro s inerted
    exact ⟨rfl, rfl, rfl, rfl, rfl⟩
  | cons c rest ih =>
    intro s inerted
    unfold scanChildren
    split
    · exact ih s inerted
    · split
      · exact ih _ inerted
      · simpa using ih (setInert s c true) (inerted ++ [c])

theorem inertSiblingsStep_preserves (ts : Option (List ElemId)) (k : Bool)
    (s : Sys) (el : ElemId) :
    (inertSiblingsStep ts k s el).doc = s.doc ∧
    (inertSiblingsStep ts k s el).blocking = s.blocking ∧
    (inertSiblingsStep ts k s el).topElParents = s.topElParents := by
  unfold inertSiblingsStep
  have h := scanChildren_preserves el ts k (siblingsScan s.doc el) s []
  simp only [moAdd_doc, setsPut_doc, moAdd_blocking, setsPut_blocking,
    moAdd_topElParents, setsPut_topElParents]
  exact ⟨h.1, h.2.1, h.2.2.1⟩

theorem inertSiblings_preserves (ts : Option (List ElemId)) (k : Bool) :
    ∀ (elements : List ElemId) (s : Sys),
      (inertSiblings s elements ts k).doc = s.doc ∧
      (inertSiblings s elements ts k).blocking = s.blocking ∧
      (inertSiblings s elements ts k).topElParents = s.topElParents := by
  intro elements
  induction elements with
  | nil => intro s; exact ⟨rfl, rfl, rfl⟩
  | cons el rest ih =>
    intro s
    unfold inertSiblings
    have h1 := inertSiblingsStep_preserves ts k s el
    have h2 := ih (inertSiblingsStep ts k s el)
    exact ⟨h2.1.trans h1.1, h2.2.1.trans h1.2.1, h2.2.2.trans h1.2.2⟩

theorem uninertAll_preserves :
    ∀ (sibs : List ElemId) (s : Sys),
      (uninertAll s sibs).doc = s.doc ∧
      (uninertAll s sibs).blocking = s.blocking ∧
      (uninertAll s sibs).topElParents = s.topElParents ∧
      (uninertAll s sibs).alreadyInert = s.alreadyInert ∧
      (uninertAll s sibs).sets = s.sets ∧
      (uninertAll s sibs).mo = s.mo := by
  intro sibs
  induction sibs with
  | nil => exact fun s => ⟨rfl, rfl, rfl, rfl, rfl, rfl⟩
  | cons c rest ih =>
    intro s
    have hstep : uninertAll s (c :: rest) =
        uninertAll (setInert s c false) rest := by
      unfold uninertAll
      simp only [List.foldl_cons]
    rw [hstep]
    simpa using ih (setInert s c false)

theorem restoreOne_preserves (s : Sys) (el : ElemId) :
    (restoreOne s el).doc = s.doc ∧
    (restoreOne s el).blocking = s.blocking ∧
    (restoreOne s el).topElParents = s.topElParents ∧
    (restoreOne s el).alreadyInert = s.alreadyInert := by
  unfold restoreOne
  have h := uninertAll_preserves
    ((setsGet (moRemove s el) el).getD []) (moRemove s el)
  simp only [setsPut_doc, setsPut_blocking, setsPut_topElParents,
    setsPut_alreadyInert]
  refine ⟨h.1.trans rfl, h.2.1.trans rfl, h.2.2.1.trans rfl,
    h.2.2.2.1.trans rfl⟩

theorem restoreInertedSiblings_preserves :
    ∀ (elements : List ElemId) (s : Sys),
      (restoreInertedSiblings s elements).doc = s.doc ∧
      (restoreInertedSiblings s elements).blocking = s.blocking ∧
      (restoreInertedSiblings s elements).topElParents = s.topElParents ∧
      (restoreInertedSiblings s elements).alreadyInert = s.alreadyInert := by
  intro elements
  induction elements with
  | nil => intro s; exact ⟨rfl, rfl, rfl, rfl⟩
  | cons el rest ih =>
    intro s
    unfold restoreInertedSiblings
    have h1 := restoreOne_preserves s el
    have h2 := ih (restoreOne s el)
    exact ⟨h2.1.trans h1.1, h2.2.1.trans h1.2.1, h2.2.2.1.trans h1.2.2.1,
      h2.2.2.2.trans h1.2.2.2⟩

theorem swapInertedSibling_preserves (s : Sys) (a b : ElemId) :
    (swapInertedSibling s a b).doc = s.doc ∧
    (swapInertedSibling s a b).blocking = s.blocking ∧
    (swapInertedSibling s a b).topElParents = s.topElParents ∧
    (swapInertedSibling s a b).alreadyInert = s.alreadyInert := by
  unfold swapInertedSibling
  simp only []
  split <;> split <;> split <;> exact ⟨rfl, rfl, rfl, rfl⟩

@[simp] theorem inertSiblings_doc (s : Sys) (els : List ElemId)
    (ts : Option (List ElemId)) (k : Bool) :
    (inertSiblings s els ts k).doc = s.doc :=
  (inertSiblings_preserves ts k els s).1

@[simp] theorem inertSiblings_blocking (s : Sys) (els : List ElemId)
    (ts : Option (List ElemId)) (k : Bool) :
    (inertSiblings s els ts k).blocking = s.blocking :=
  (inertSiblings_preserves ts k els s).2.1

@[simp] theorem inertSiblings_topElParents (s : Sys) (els : List ElemId)
    (ts : Option (List ElemId)) (k : Bool) :
    (inertSiblings s els ts k).topElParents = s.topElParents :=
  (inertSiblings_preserves ts k els s).2.2

@[simp] theorem restoreInertedSiblings_doc (s : Sys) (els : List ElemId) :
    (restoreInertedSiblings s els).doc = s.doc :=
  (restoreInertedSiblings_preserves els s).1

@[simp] theorem restoreInertedSiblings_blocking (s : Sys)
    (els : List ElemId) :
    (restoreInertedSiblings s els).blocking = s.blocking :=
  (restoreInertedSiblings_preserves els s).2.1

@[simp] theorem restoreInertedSiblings_topElParents (s : Sys)
    (els : List ElemId) :
    (restoreInertedSiblings s els).topElParents = s.topElParents :=
  (restoreInertedSiblings_preserves els s).2.2.1

@[simp] theorem restoreInertedSiblings_alreadyInert (s : Sys)
    (els : List ElemId) :
    (restoreInertedSiblings s els).alreadyInert = s.alreadyInert :=
  (restoreInertedSiblings_preserves els s).2.2.2

@[simp] theorem swapInertedSibling_doc (s : Sys) (a b : ElemId) :
    (swapInertedSibling s a b).doc = s.doc :=
  (swapInertedSibling_preserves s a b).1

@[simp] theorem swapInertedSibling_blocking (s : Sys) (a b : ElemId) :
    (swapInertedSibling s a b).blocking = s.blocking :=
  (swapInertedSibling_preserves s a b).2.1

@[simp] theorem swapInertedSibling_topElParents (s : Sys) (a b : ElemId) :
    (swapInertedSibling s a b).topElParents = s.topElParents :=
  (swapInertedSibling_preserves s a b).2.2.1

@[simp] theorem swapInertedSibling_alreadyInert (s : Sys) (a b : ElemId) :
    (swapInertedSibling s a b).alreadyInert = s.alreadyInert :=
  (swapInertedSibling_preserves s a b).2.2.2

theorem topChanged_fst_doc (s : Sys) (nt : Option ElemId) :
    ((topChanged s nt).1).doc = s.doc ∧
    ((topChanged s nt).1).blocking = s.blocking := by
  cases nt with
  | none =>
    have h := restoreInertedSiblings_preserves s.topElParents s
    exact ⟨h.1, h.2.1⟩
  | some e =>
    unfold topChanged
    simp only []
    split
    · exact ⟨rfl, rfl⟩
    · split
      · exact ⟨rfl, rfl⟩
      · split
        · constructor <;> simp
        · split <;> split <;> split <;> (constructor <;> simp)

theorem topChanged_err_none (s : Sys) (e : ElemId)
    (hc : connectedToBody s.doc e = true) :
    (topChanged s (some e)).2 = none := by
  unfold connectedToBody at hc
  unfold topChanged
  simp only []
  cases hl : (getParents s.doc e).getLast? with
  | none => rw [hl] at hc; exact absurd hc (by simp)
  | some lastEl =>
    rw [hl] at hc
    have hb : s.doc.parentNode lastEl = some s.doc.body := by simpa using hc
    simp only [hb, ne_eq, not_true_eq_false, if_false]
    split <;> rfl

end EnginePreservation

/-- C10: pushing an element that is in the stack strictly below the top moves
it to the top: the old entry is removed, the element is re-appended as the new
top, and no duplicate entries arise; the earlier variant implementations
instead reject (warn) and leave the stack unchanged. -/
theorem c10_move_to_top (s : Sys) (e : ElemId) (i : Nat)
    (hnd : s.blocking.Nodup)
    (hf : s.blocking.findIdx? (· == e) = some i)
    (hi : i + 1 < s.blocking.length)
    (hconn : connectedToBody s.doc e = true) :
    ((push s e).2 = none ∧
     (push s e).1.top = some e ∧
     (push s e).1.blocking = s.blocking.eraseIdx i ++ [e] ∧
     (push s e).1.blocking.Nodup) ∧
    (∀ bl n, n ∈ bl → variantPush bl n = (bl, true)) := by
  have hgep := List.findIdx?_eq_some_iff_getElem.mp hf
  rcases hgep with ⟨hlt, hpe, -⟩
  have hie : s.blocking[i] = e := by simpa using hpe
  have htop : ¬ (s.top = some e) := by
    intro h
    unfold Sys.top at h
    rw [List.getLast?_eq_getElem?] at h
    have hpos : 0 < s.blocking.length := by omega
    have hlast : s.blocking.length - 1 < s.blocking.length := by omega
    rw [List.getElem?_eq_getElem hlast] at h
    have hle : s.blocking[s.blocking.length - 1] = e := by
      simpa using h
    have := (@List.Nodup.getElem_inj_iff _ _ hnd i hlt
      (s.blocking.length - 1) hlast).mp (hie.trans hle.symm)
    omega
  have hrem := remove_mid s e i hf hi
  have hnotmem : e ∉ s.blocking.eraseIdx i := by
    intro hmem
    rcases List.mem_eraseIdx_iff_getElem.mp hmem with ⟨j, hj, hji, hje⟩
    exact hji ((@List.Nodup.getElem_inj_iff _ _ hnd j hj i hlt).mp
      (hje.trans hie.symm))
  have hnderase : (s.blocking.eraseIdx i).Nodup :=
    (List.eraseIdx_sublist s.blocking i).nodup hnd
  set s1 : Sys := { s with blocking := s.blocking.eraseIdx i } with hs1
  have herr := topChanged_err_none s1 e hconn
  have hbl := (topChanged_fst_doc s1 (some e)).2
  have hpush : push s e =
      ({ (topChanged s1 (some e)).1 with
          blocking := (topChanged s1 (some e)).1.blocking ++ [e] }, none) := by
    unfold push
    rw [if_neg htop, hrem]
    simp only []
    rcases htc : topChanged s1 (some e) with ⟨t1, t2⟩
    rw [htc] at herr
    simp only [] at herr
    subst herr
    rfl
  refine ⟨⟨?_, ?_, ?_, ?_⟩, ?_⟩
  · rw [hpush]
  · rw [hpush]
    unfold Sys.top
    exact List.getLast?_concat _
  · rw [hpush]
    simp only [hbl]
  · rw [hpush]
    simp only [hbl]
    rw [List.nodup_append]
    refine ⟨hnderase, List.nodup_singleton e, ?_⟩
    intro x hx hxe
    rw [List.mem_singleton] at hxe
    exact hnotmem (hxe ▸ hx)
  · intro bl n hmem
    unfold variantPush
    rw [if_pos hmem]

section FlagLemmas

@[simp] theorem isInert_setInert_true_self (s : Sys) (e : ElemId) :
    isInert (setInert s e true) e = true := by
  unfold isInert setInert addUniq
  by_cases h : e ∈ s.inerts <;> simp [h]

@[simp] theorem isInert_setInert_false_self (s : Sys) (e : ElemId) :
    isInert (setInert s e false) e = false := by
  unfold isInert setInert
  simp [List.mem_filter]

theorem isInert_setInert_other (s : Sys) (e x : ElemId) (b : Bool)
    (h : x ≠ e) : isInert (setInert s e b) x = isInert s x := by
  unfold isInert setInert addUniq
  cases b with
  | false =>
    simp only [Bool.false_eq_true, if_false, decide_eq_decide,
      List.mem_filter]
    constructor
    · exact fun hm => hm.1
    · exact fun hm => ⟨hm, by simpa using h⟩
  | true =>
    by_cases hmem : e ∈ s.inerts
    · simp [hmem]
    · simp only [hmem, if_true, if_false,
        decide_eq_decide, List.mem_append, List.mem_singleton]
      constructor
      · rintro (hm | hm)
        · exact hm
        · exact absurd hm h
      · exact fun hm => Or.inl hm

/-- Flag characterization of the sibling scan: after `scanChildren`, an
element's flag is its old flag, or true exactly when the scan acted on it. -/
theorem scanChildren_isInert (el : ElemId) (ts : Option (List ElemId))
    (k : Bool) :
    ∀ (children : List ElemId) (s : Sys) (inerted : List ElemId) (x : ElemId),
      isInert (scanChildren el ts k s children inerted).1 x =
        (isInert s x ||
          (decide (x ∈ children) && !(x == el) && isInertable s.doc x &&
            !(skipHas ts x))) := by
  intro children
  induction children with
  | nil =>
    intro s inerted x
    simp [scanChildren]
  | cons c rest ih =>
    intro s inerted x
    unfold scanChildren
    split
    · rename_i hguard
      rw [ih s inerted x]
      by_cases hxc : x = c
      · subst hxc
        rcases hguard with h | h | h
        · subst h
          simp
        · simp [h]
        · simp [h]
      · have hmm : decide (x ∈ c :: rest) = decide (x ∈ rest) :=
          decide_eq_decide.mpr (by simp [hxc])
        rw [hmm]
    · rename_i hguard
      split
      · rename_i hkeep
        rw [ih _ inerted x]
        by_cases hxc : x = c
        · subst hxc
          have hx : isInert s x = true := hkeep.2
          have hx2 :
              isInert { s with alreadyInert := addUniq s.alreadyInert x } x
              = true := hx
          rw [hx2, hx]
          simp
        · have hmm : decide (x ∈ c :: rest) = decide (x ∈ rest) :=
            decide_eq_decide.mpr (by simp [hxc])
          rw [hmm]
          rfl
      · rw [ih _ _ x]
        push_neg at hguard
        rcases hguard with ⟨hcel, hin, hsk⟩
        by_cases hxc : x = c
        · subst hxc
          rw [isInert_setInert_true_self]
          have hin' : isInertable s.doc x = true := by
            simpa using hin
          have hsk' : skipHas ts x = false := by
            simpa using hsk
          have hcel' : (x == el) = false := by
            simpa using hcel
          simp [hin', hsk', hcel']
        · rw [isInert_setInert_other s c x true hxc]
          have hmm : decide (x ∈ c :: rest) = decide (x ∈ rest) :=
            decide_eq_decide.mpr (by simp [hxc])
          rw [hmm]
          rfl

/-- Flag characterization of `[_inertSiblings]` over a list of level elements:
an element's flag is its old flag, or true exactly when some level scan acted
on it (`scannedSiblingAt`).  This holds for both collection modes. -/
theorem inertSiblings_isInert (ts : Option (List ElemId)) (k : Bool) :
    ∀ (els : List ElemId) (s : Sys) (x : ElemId),
      isInert (inertSiblings s els ts k) x =
        (isInert s x || els.any (fun el => scannedSiblingAt s.doc ts el x)) := by
  intro els
  induction els with
  | nil =>
    intro s x
    simp [inertSiblings]
  | cons el rest ih =>
    intro s x
    unfold inertSiblings
    rw [ih _ x]
    have hdoc : (inertSiblingsStep ts k s el).doc = s.doc :=
      (inertSiblingsStep_preserves ts k s el).1
    rw [hdoc]
    have hstep : isInert (inertSiblingsStep ts k s el) x =
        (isInert s x || scannedSiblingAt s.doc ts el x) := by
      unfold inertSiblingsStep
      rw [isInert_moAdd, isInert_setsPut]
      rw [scanChildren_isInert el ts k (siblingsScan s.doc el) s [] x]
      rfl
    rw [hstep]
    simp [Bool.or_assoc]

end FlagLemmas

/-- C1 counterexample: after push(1) on a pristine engine, element 3 — a child
of the new top, reachable from the root, not on the ancestor path of the top,
not the top, and not a distributed child — is non-inert, refuting that
"exactly the elements on the ancestor path of top (plus top and its
distributed children) are non-inert among elements reachable from the root". -/
theorem c1_counterexample :
    (push exSysClean 1).2 = none ∧
    (push exSysClean 1).1.top = some 1 ∧
    reachableFromRoot (push exSysClean 1).1.doc 3 = true ∧
    3 ∉ getParents (push exSysClean 1).1.doc 1 ∧
    getDistributedChildren (push exSysClean 1).1.doc 1 = none ∧
    isInert (push exSysClean 1).1 3 = false := by decide

/-- Helper: the first push on a pristine engine takes the success path of
`[_topChanged]` with no previous parents, producing exactly the state in which
the new parents' siblings have been inerted with collection on and the element
appended to the stack. -/
theorem push_pristine_eq (s : Sys) (a : ElemId) (hpr : pristine s)
    (hconn : connectedToBody s.doc a = true) :
    push s a =
      ({ inertSiblings { s with topElParents := getParents s.doc a }
            (getParents s.doc a) (getDistributedChildren s.doc a) true
          with blocking := s.blocking ++ [a] }, none) := by
  obtain ⟨hb, ht, -, -, -⟩ := hpr
  have htop : ¬ (s.top = some a) := by
    unfold Sys.top
    rw [hb]
    simp
  have hrem : remove s a = (s, false, none) :=
    remove_absent s a (by rw [hb]; simp)
  unfold connectedToBody at hconn
  rcases hlast : (getParents s.doc a).getLast? with _ | lastEl
  · rw [hlast] at hconn
    exact absurd hconn (by simp)
  rw [hlast] at hconn
  have hpn : s.doc.parentNode lastEl = some s.doc.body := by simpa using hconn
  have htc : topChanged s (some a) =
      (inertSiblings { s with topElParents := getParents s.doc a }
        (getParents s.doc a) (getDistributedChildren s.doc a) true, none) := by
    unfold topChanged
    simp only [hlast, hpn, ne_eq, not_true_eq_false, if_false, ht, if_true]
  unfold push
  rw [if_neg htop, hrem]
  simp only []
  rw [htc]
  simp only [inertSiblings_blocking]

/-- C1 amended: after the first push of a connected element `a` on a pristine
engine, the inert flags are characterized exactly: an element is inert
precisely when it was already inert before the push, or it is an inertable
sibling of some element of `a`'s ancestor path (excluding the path element
itself and `a`'s distributed children).  In particular the path, the top's own
subtree, and the skipped siblings are non-inert (unless already inert before),
and every other sibling branching off the path is inert. -/
theorem c1_amended (s : Sys) (a : ElemId) (hpr : pristine s)
    (hconn : connectedToBody s.doc a = true) (x : ElemId) :
    (push s a).2 = none ∧
    isInert (push s a).1 x =
      (isInert s x ||
        (getParents s.doc a).any
          (fun el => scannedSiblingAt s.doc (getDistributedChildren s.doc a)
            el x)) := by
  have hpush := push_pristine_eq s a hpr hconn
  constructor
  · rw [hpush]
  · rw [hpush]
    have h := inertSiblings_isInert (getDistributedChildren s.doc a) true
      (getParents s.doc a) { s with topElParents := getParents s.doc a } x
    exact h

/-- Witness for `c1_amended`: the characterization applied to the six-element
document with element 5 pre-inert, pushing element 3 and checking element 2. -/
theorem c1_witness :
    (push exSys0 3).2 = none ∧
    isInert (push exSys0 3).1 2 =
      (isInert exSys0 2 ||
        (getParents exSys0.doc 3).any
          (fun el => scannedSiblingAt exSys0.doc
            (getDistributedChildren exSys0.doc 3) el 2)) :=
  c1_amended exSys0 3 ⟨rfl, rfl, rfl, rfl, rfl⟩ (by decide) 2

section RoundTrip

theorem sysExt (s t : Sys) (h1 : s.doc = t.doc) (h2 : s.inerts = t.inerts)
    (h3 : s.blocking = t.blocking) (h4 : s.topElParents = t.topElParents)
    (h5 : s.alreadyInert = t.alreadyInert) (h6 : s.sets = t.sets)
    (h7 : s.mo = t.mo) : s = t := by
  cases s
  cases t
  simp_all

theorem setsGet_setsPut_self_some (s : Sys) (e : ElemId) (l : List ElemId) :
    setsGet (setsPut s e (some l)) e = some l := by
  unfold setsGet setsPut
  simp [List.lookup_cons]

theorem setsGet_setsPut_other (s : Sys) (e el : ElemId)
    (v : Option (List ElemId)) (h : e ≠ el) :
    setsGet (setsPut s el v) e = setsGet s e := by
  unfold setsGet setsPut
  cases v with
  | none => exact lookup_filter_ne s.sets el e h
  | some l =>
    simp only [List.lookup_cons]
    have : (e == el) = false := by
      rw [beq_eq_false_iff_ne]
      exact h
    rw [this]
    exact lookup_filter_ne s.sets el e h

theorem uninertAll_isInert :
    ∀ (l : List ElemId) (s : Sys) (x : ElemId),
      isInert (uninertAll s l) x = (isInert s x && !(decide (x ∈ l))) := by
  intro l
  induction l with
  | nil =>
    intro s x
    simp [uninertAll]
  | cons c rest ih =>
    intro s x
    have hstep : uninertAll s (c :: rest) =
        uninertAll (setInert s c false) rest := by
      unfold uninertAll
      simp only [List.foldl_cons]
    rw [hstep, ih]
    by_cases hxc : x = c
    · subst hxc
      simp
    · rw [isInert_setInert_other s c x false hxc]
      have hmm : decide (x ∈ c :: rest) = decide (x ∈ rest) :=
        decide_eq_decide.mpr (by simp [hxc])
      rw [hmm]

theorem restoreOne_isInert (s : Sys) (el : ElemId) (l : List ElemId)
    (h : setsGet s el = some l) (x : ElemId) :
    isInert (restoreOne s el) x = (isInert s x && !(decide (x ∈ l))) := by
  unfold restoreOne
  rw [isInert_setsPut]
  have hget : setsGet (moRemove s el) el = some l := by
    rw [setsGet_moRemove]
    exact h
  rw [hget]
  simp only [Option.getD_some]
  rw [uninertAll_isInert]
  rfl

theorem restoreOne_setsGet_other (s : Sys) (e el : ElemId) (h : e ≠ el) :
    setsGet (restoreOne s el) e = setsGet s e := by
  unfold restoreOne
  rw [setsGet_setsPut_other _ _ _ _ h]
  generalize (setsGet (moRemove s el) el).getD [] = sibs
  have hu := (uninertAll_preserves sibs (moRemove s el)).2.2.2.2.1
  unfold setsGet
  rw [hu]
  rfl

theorem restore_setsGet_notmem :
    ∀ (els : List ElemId) (s : Sys) (e : ElemId), e ∉ els →
      setsGet (restoreInertedSiblings s els) e = setsGet s e := by
  intro els
  induction els with
  | nil => intro s e _; rfl
  | cons el rest ih =>
    intro s e he
    unfold restoreInertedSiblings
    rw [ih _ _ (fun h => he (List.mem_cons_of_mem el h))]
    exact restoreOne_setsGet_other s e el (fun h => he (h ▸ List.mem_cons_self el rest))

theorem inertSiblingsStep_setsGet_other (ts : Option (List ElemId)) (k : Bool)
    (s : Sys) (el e : ElemId) (h : e ≠ el) :
    setsGet (inertSiblingsStep ts k s el) e = setsGet s e := by
  unfold inertSiblingsStep
  rw [setsGet_moAdd, setsGet_setsPut_other _ _ _ _ h]
  have := (scanChildren_preserves el ts k (siblingsScan s.doc el) s []).2.2.2.1
  unfold setsGet
  rw [this]

theorem inertSiblings_setsGet_notmem (ts : Option (List ElemId)) (k : Bool) :
    ∀ (els : List ElemId) (s : Sys) (e : ElemId), e ∉ els →
      setsGet (inertSiblings s els ts k) e = setsGet s e := by
  intro els
  induction els with
  | nil => intro s e _; rfl
  | cons el rest ih =>
    intro s e he
    unfold inertSiblings
    rw [ih _ _ (fun h => he (List.mem_cons_of_mem el h))]
    exact inertSiblingsStep_setsGet_other ts k s el e
      (fun h => he (h ▸ List.mem_cons_self el rest))

theorem uninertAll_inerts :
    ∀ (l : List ElemId) (s : Sys),
      (uninertAll s l).inerts =
        s.inerts.filter (fun y => !(decide (y ∈ l))) := by
  intro l
  induction l with
  | nil =>
    intro s
    have : ∀ y ∈ s.inerts, (!(decide (y ∈ ([] : List ElemId)))) = true := by
      intro y _
      simp
    rw [List.filter_eq_self.mpr this]
    rfl
  | cons c rest ih =>
    intro s
    have hstep : uninertAll s (c :: rest) =
        uninertAll (setInert s c false) rest := by
      unfold uninertAll
      simp only [List.foldl_cons]
    rw [hstep, ih]
    show (s.inerts.filter (· != c)).filter _ = _
    rw [List.filter_filter]
    apply List.filter_congr
    intro y _
    by_cases hyc : y = c
    · subst hyc
      simp
    · by_cases hyr : y ∈ rest <;> simp [hyc, hyr]

theorem restoreOne_inerts (s : Sys) (el : ElemId) :
    (restoreOne s el).inerts =
      s.inerts.filter (fun y => !(decide (y ∈ (setsGet s el).getD []))) := by
  unfold restoreOne
  rw [setsPut_inerts]
  exact uninertAll_inerts _ _

theorem restoreOne_sets (s : Sys) (el : ElemId) :
    (restoreOne s el).sets = s.sets.filter (fun p => p.1 != el) := by
  unfold restoreOne
  show ((uninertAll (moRemove s el) _).sets).filter _ = _
  rw [(uninertAll_preserves _ _).2.2.2.2.1]
  rfl

theorem restoreOne_mo (s : Sys) (el : ElemId) :
    (restoreOne s el).mo = s.mo.filter (· != el) := by
  unfold restoreOne
  have h1 : (setsPut (uninertAll (moRemove s el)
      ((setsGet (moRemove s el) el).getD [])) el none).mo =
      (uninertAll (moRemove s el)
        ((setsGet (moRemove s el) el).getD [])).mo := setsPut_mo _ _ _
  rw [h1, (uninertAll_preserves _ _).2.2.2.2.2]
  rfl

theorem restoreOne_comm (s : Sys) (a b : ElemId) (hab : a ≠ b) :
    restoreOne (restoreOne s a) b = restoreOne (restoreOne s b) a := by
  apply sysExt
  · rw [(restoreOne_preserves _ _).1, (restoreOne_preserves _ _).1,
      (restoreOne_preserves _ _).1, (restoreOne_preserves _ _).1]
  · rw [restoreOne_inerts, restoreOne_inerts, restoreOne_inerts,
      restoreOne_inerts]
    rw [restoreOne_setsGet_other s b a (Ne.symm hab),
      restoreOne_setsGet_other s a b hab]
    rw [List.filter_filter, List.filter_filter]
    apply List.filter_congr
    intro y _
    exact Bool.and_comm _ _
  · rw [(restoreOne_preserves _ _).2.1, (restoreOne_preserves _ _).2.1,
      (restoreOne_preserves _ _).2.1, (restoreOne_preserves _ _).2.1]
  · rw [(restoreOne_preserves _ _).2.2.1, (restoreOne_preserves _ _).2.2.1,
      (restoreOne_preserves _ _).2.2.1, (restoreOne_preserves _ _).2.2.1]
  · rw [(restoreOne_preserves _ _).2.2.2, (restoreOne_preserves _ _).2.2.2,
      (restoreOne_preserves _ _).2.2.2, (restoreOne_preserves _ _).2.2.2]
  · rw [restoreOne_sets, restoreOne_sets, restoreOne_sets, restoreOne_sets]
    rw [List.filter_filter, List.filter_filter]
    apply List.filter_congr
    intro y _
    exact Bool.and_comm _ _
  · rw [restoreOne_mo, restoreOne_mo, restoreOne_mo, restoreOne_mo]
    rw [List.filter_filter, List.filter_filter]
    apply List.filter_congr
    intro y _
    exact Bool.and_comm _ _

theorem restore_restoreOne_comm :
    ∀ (els : List ElemId) (s : Sys) (el : ElemId), el ∉ els →
      restoreInertedSiblings (restoreOne s el) els =
        restoreOne (restoreInertedSiblings s els) el := by
  intro els
  induction els with
  | nil => intro s el _; rfl
  | cons e rest ih =>
    intro s el he
    have hne : el ≠ e := fun h => he (h ▸ List.mem_cons_self e rest)
    have hrest : el ∉ rest := fun h => he (List.mem_cons_of_mem e h)
    show restoreInertedSiblings (restoreOne (restoreOne s el) e) rest = _
    rw [restoreOne_comm s el e hne, ih _ _ hrest]
    rfl

theorem scanChildren_acc_mem (el : ElemId) (ts : Option (List ElemId))
    (k : Bool) :
    ∀ (children : List ElemId) (s : Sys) (inerted : List ElemId)
      (x : ElemId), x ∈ inerted →
      x ∈ (scanChildren el ts k s children inerted).2 := by
  intro children
  induction children with
  | nil => intro s inerted x hx; exact hx
  | cons c rest ih =>
    intro s inerted x hx
    unfold scanChildren
    split
    · exact ih s inerted x hx
    · split
      · exact ih _ inerted x hx
      · exact ih _ _ x (List.mem_append_left _ hx)

theorem scanChildren_rec_true (el : ElemId) (ts : Option (List ElemId)) :
    ∀ (children : List ElemId) (s : Sys) (inerted : List ElemId)
      (x : ElemId), x ∈ (scanChildren el ts true s children inerted).2 →
      x ∈ inerted ∨ isInert s x = false := by
  intro children
  induction children with
  | nil => intro s inerted x hx; exact Or.inl hx
  | cons c rest ih =>
    intro s inerted x hx
    unfold scanChildren at hx
    split at hx
    · exact ih s inerted x hx
    · split at hx
      · rcases ih _ inerted x hx with h | h
        · exact Or.inl h
        · exact Or.inr h
      · rename_i hguard hkeep
        rcases ih _ _ x hx with h | h
        · rcases List.mem_append.mp h with h2 | h2
          · exact Or.inl h2
          · rw [List.mem_singleton] at h2
            subst h2
            right
            by_contra hne
            exact hkeep ⟨rfl, by simpa using hne⟩
        · by_cases hxc : x = c
          · subst hxc
            right
            by_contra hne
            exact hkeep ⟨rfl, by simpa using hne⟩
          · rw [isInert_setInert_other s c x true hxc] at h
            exact Or.inr h

theorem scanChildren_scanned_mem (el : ElemId) (ts : Option (List ElemId)) :
    ∀ (children : List ElemId) (s : Sys) (inerted : List ElemId)
      (x : ElemId),
      x ∈ children → x ≠ el → isInertable s.doc x = true →
      skipHas ts x = false → isInert s x = false →
      x ∈ (scanChildren el ts true s children inerted).2 := by
  intro children
  induction children with
  | nil => intro s inerted x hx; simp at hx
  | cons c rest ih =>
    intro s inerted x hx hel hin hsk hflag
    unfold scanChildren
    split
    · rename_i hguard
      rcases List.mem_cons.mp hx with h | h
      · subst h
        rcases hguard with hg | hg | hg
        · exact absurd hg hel
        · rw [hin] at hg
          exact absurd hg (by simp)
        · rw [hsk] at hg
          exact absurd hg (by simp)
      · exact ih s inerted x h hel hin hsk hflag
    · split
      · rename_i hguard hkeep
        rcases List.mem_cons.mp hx with h | h
        · subst h
          rw [hflag] at hkeep
          exact absurd hkeep.2 (by simp)
        · exact ih _ inerted x h hel hin hsk hflag
      · rcases List.mem_cons.mp hx with h | h
        · subst h
          exact scanChildren_acc_mem el ts true rest _ _ x
            (List.mem_append_right _ (List.mem_singleton.mpr rfl))
        · by_cases hxc : x = c
          · subst hxc
            exact scanChildren_acc_mem el ts true rest _ _ x
              (List.mem_append_right _ (List.mem_singleton.mpr rfl))
          · exact ih _ _ x h hel hin hsk
              (by rw [isInert_setInert_other s c x true hxc]; exact hflag)

/-- The central cancellation property: inerting the siblings of a
duplicate-free list of level elements with the collection mode on, then
restoring those same levels, leaves every inert flag exactly as it was. -/
theorem restore_after_inert_roundtrip :
    ∀ (els : List ElemId), els.Nodup →
      ∀ (s : Sys) (ts : Option (List ElemId)) (x : ElemId),
        isInert (restoreInertedSiblings (inertSiblings s els ts true) els) x =
          isInert s x := by
  intro els
  induction els with
  | nil => intro _ s ts x; rfl
  | cons el rest ih =>
    intro hnd s ts x
    have hel : el ∉ rest := (List.nodup_cons.mp hnd).1
    have hndr : rest.Nodup := (List.nodup_cons.mp hnd).2
    have h1 : inertSiblings s (el :: rest) ts true =
        inertSiblings (inertSiblingsStep ts true s el) rest ts true := rfl
    have h2 : ∀ (m : Sys), restoreInertedSiblings m (el :: rest) =
        restoreInertedSiblings (restoreOne m el) rest := fun m => rfl
    rw [h1, h2]
    rw [restore_restoreOne_comm rest _ el hel]
    have hrecS2 : setsGet (inertSiblingsStep ts true s el) el =
        some (scanChildren el ts true s (siblingsScan s.doc el) []).2 := by
      unfold inertSiblingsStep
      rw [setsGet_moAdd]
      exact setsGet_setsPut_self_some _ _ _
    have hTel : setsGet (restoreInertedSiblings
        (inertSiblings (inertSiblingsStep ts true s el) rest ts true) rest)
        el = some (scanChildren el ts true s (siblingsScan s.doc el) []).2 := by
      rw [restore_setsGet_notmem rest _ el hel,
        inertSiblings_setsGet_notmem ts true rest _ el hel]
      exact hrecS2
    rw [restoreOne_isInert _ el _ hTel x]
    have hTx : isInert (restoreInertedSiblings
        (inertSiblings (inertSiblingsStep ts true s el) rest ts true) rest) x
        = isInert (inertSiblingsStep ts true s el) x :=
      ih hndr (inertSiblingsStep ts true s el) ts x
    rw [hTx]
    have hS2x : isInert (inertSiblingsStep ts true s el) x =
        (isInert s x || scannedSiblingAt s.doc ts el x) := by
      unfold inertSiblingsStep
      rw [isInert_moAdd, isInert_setsPut,
        scanChildren_isInert el ts true (siblingsScan s.doc el) s [] x]
      rfl
    rw [hS2x]
    by_cases hx :
        x ∈ (scanChildren el ts true s (siblingsScan s.doc el) []).2
    · have hflag : isInert s x = false := by
        rcases scanChildren_rec_true el ts _ s [] x hx with h | h
        · simp at h
        · exact h
      rw [hflag]
      simp [hx]
    · by_cases hq : scannedSiblingAt s.doc ts el x = true
      · have hsx : isInert s x = true := by
          by_contra hfl
          have hfl' : isInert s x = false := by simpa using hfl
          unfold scannedSiblingAt at hq
          rw [Bool.and_eq_true, Bool.and_eq_true, Bool.and_eq_true] at hq
          obtain ⟨⟨⟨hmem, hne⟩, hin⟩, hsk⟩ := hq
          have hmem' : x ∈ siblingsScan s.doc el := by simpa using hmem
          have hne' : x ≠ el := by simpa using hne
          have hsk' : skipHas ts x = false := by simpa using hsk
          exact hx (scanChildren_scanned_mem el ts _ s [] x hmem' hne' hin
            hsk' hfl')
        rw [hsx, hq]
        simp [hx]
      · have hq' : scannedSiblingAt s.doc ts el x = false := by simpa using hq
        rw [hq']
        simp [hx]

theorem restore_inerts_congr :
    ∀ (els : List ElemId) (s t : Sys), s.inerts = t.inerts →
      s.sets = t.sets →
      (restoreInertedSiblings s els).inerts =
        (restoreInertedSiblings t els).inerts := by
  intro els
  induction els with
  | nil => intro s t h1 _; exact h1
  | cons el rest ih =>
    intro s t h1 h2
    show (restoreInertedSiblings (restoreOne s el) rest).inerts = _
    apply ih
    · rw [restoreOne_inerts, restoreOne_inerts, h1]
      have hg : setsGet s el = setsGet t el := by
        unfold setsGet
        rw [h2]
      rw [hg]
    · rw [restoreOne_sets, restoreOne_sets, h2]

/-- Helper: full computation of push(a) followed by pop() from a pristine
engine: pop returns the element with no error, the stack is empty again, and
every inert flag is back to its pre-push value. -/
theorem push_pop_flags (s : Sys) (a : ElemId) (hpr : pristine s)
    (hconn : connectedToBody s.doc a = true)
    (hnd : (getParents s.doc a).Nodup) :
    (pop (push s a).1).2.1 = some a ∧
    (pop (push s a).1).2.2 = none ∧
    (pop (push s a).1).1.blocking = [] ∧
    ∀ x, isInert (pop (push s a).1).1 x = isInert s x := by
  have hpush := push_pristine_eq s a hpr hconn
  obtain ⟨hb, ht, ha, hs, hm⟩ := hpr
  have hsp : (push s a).1 =
      { inertSiblings { s with topElParents := getParents s.doc a }
          (getParents s.doc a) (getDistributedChildren s.doc a) true
        with blocking := [a] } := by
    rw [hpush]
    simp only [hb]
    rfl
  rw [hsp]
  generalize hX : inertSiblings { s with topElParents := getParents s.doc a }
      (getParents s.doc a) (getDistributedChildren s.doc a) true = X
  have hXtep : X.topElParents = getParents s.doc a := by
    rw [← hX]
    simp
  have hXinerts : ∀ x, isInert (restoreInertedSiblings X
      (getParents s.doc a)) x = isInert s x := by
    intro x
    rw [← hX]
    exact restore_after_inert_roundtrip (getParents s.doc a) hnd
      { s with topElParents := getParents s.doc a }
      (getDistributedChildren s.doc a) x
  have hfind : ([a] : List ElemId).findIdx? (· == a) = some 0 := by simp
  have hrem : remove { X with blocking := [a] } a =
      ((topChanged { X with blocking := [] } none).1, true,
        (topChanged { X with blocking := [] } none).2) := by
    unfold remove
    rw [hfind]
    rfl
  have hpop : pop { X with blocking := [a] } =
      ((topChanged { X with blocking := [] } none).1, some a,
        (topChanged { X with blocking := [] } none).2) := by
    unfold pop
    have htop : ({ X with blocking := [a] } : Sys).top = some a := rfl
    rw [htop]
    simp only []
    rw [hrem]
  rw [hpop]
  have htcn : topChanged { X with blocking := [] } none =
      ({ restoreInertedSiblings { X with blocking := [] }
          ({ X with blocking := [] } : Sys).topElParents with
        alreadyInert := [], topElParents := [] }, none) := rfl
  rw [htcn]
  refine ⟨rfl, rfl, ?_, ?_⟩
  · simp
  · intro x
    have hc : isInert { restoreInertedSiblings { X with blocking := [] }
        ({ X with blocking := [] } : Sys).topElParents with
        alreadyInert := [], topElParents := [] } x =
        isInert (restoreInertedSiblings { X with blocking := [] }
          ({ X with blocking := [] } : Sys).topElParents) x := rfl
    rw [hc]
    have htep2 : ({ X with blocking := [] } : Sys).topElParents =
        getParents s.doc a := hXtep
    rw [htep2]
    have hcongr := restore_inerts_congr (getParents s.doc a)
      { X with blocking := [], topElParents := getParents s.doc a } X rfl rfl
    unfold isInert
    rw [hcongr]
    exact hXinerts x

end RoundTrip

/-- The state for C4 and C5 counterexamples is reached from `exSys0` (element
5 inert from the start) by push(3): the stack is [3] and element 5 sits at a
level the engine has not scanned. -/
def c4_before : Sys := (push exSys0 3).1

/-- C4 counterexample: from the reachable state with stack [3], pushing the
connected element 4 and popping flips element 5's inert flag from true to
false — the round trip is not bit-for-bit. -/
theorem c4_counterexample :
    connectedToBody c4_before.doc 4 = true ∧
    isInert c4_before 5 = true ∧
    isInert (pop (push c4_before 4).1).1 5 = false := by decide

/-- C4 amended: when the push is the FIRST push (pristine engine, connected
element, duplicate-free ancestor path), push(a); pop() restores every
element's inert flag bit-for-bit (and pop returns a with no error).  With a
non-empty stack the law fails: a level scanned for the first time by the
second push is scanned without the already-inert collection, so a pre-inert
element there is recorded as engine-inerted and wrongly cleared on pop, as the
counterexample shows. -/
theorem c4_roundtrip_first_push (s : Sys) (a : ElemId) (hpr : pristine s)
    (hconn : connectedToBody s.doc a = true)
    (hnd : (getParents s.doc a).Nodup) (x : ElemId) :
    (pop (push s a).1).2.1 = some a ∧
    (pop (push s a).1).2.2 = none ∧
    isInert (pop (push s a).1).1 x = isInert s x := by
  have h := push_pop_flags s a hpr hconn hnd
  exact ⟨h.1, h.2.1, h.2.2.2 x⟩

/-- Witness for `c4_roundtrip_first_push`: pushing and popping element 3 on
the six-element document with element 5 pre-inert leaves element 2's flag
unchanged. -/
theorem c4_witness :
    (pop (push exSys0 3).1).2.1 = some 3 ∧
    (pop (push exSys0 3).1).2.2 = none ∧
    isInert (pop (push exSys0 3).1).1 2 = isInert exSys0 2 :=
  c4_roundtrip_first_push exSys0 3 ⟨rfl, rfl, rfl, rfl, rfl⟩ (by decide)
    (by decide) 2

/-- C5 counterexample: element 5 is inert before any push; the sequence
push(3); push(4); pop(); pop() empties the stack, yet element 5 ends up
non-inert — it was never recorded in the already-inert set (its level was
first scanned by the second push, with collection off) and its flag was
cleared during restoration. -/
theorem c5_counterexample :
    isInert exSys0 5 = true ∧
    (run exSys0 [Op.opPush 3, Op.opPush 4, Op.opPop, Op.opPop]).blocking
      = [] ∧
    isInert (run exSys0 [Op.opPush 3, Op.opPush 4, Op.opPop, Op.opPop]) 5
      = false := by decide

/-- C5 amended: the preservation law holds for the emptying sequences that
scan levels only while the already-inert collection is active — in particular
for a single push followed by pop from a pristine engine: an element inert
before the push is still inert once the stack is empty again.  For longer
sequences it can fail, as the counterexample shows. -/
theorem c5_preservation_single (s : Sys) (xEl a : ElemId) (hpr : pristine s)
    (hconn : connectedToBody s.doc a = true)
    (hnd : (getParents s.doc a).Nodup)
    (hX : isInert s xEl = true) :
    (pop (push s a).1).1.blocking = [] ∧
    isInert (pop (push s a).1).1 xEl = true := by
  have h := push_pop_flags s a hpr hconn hnd
  exact ⟨h.2.2.1, (h.2.2.2 xEl).trans hX⟩

/-- Witness for `c5_preservation_single`: element 5, inert before any push,
is still inert after push(3); pop() has emptied the stack. -/
theorem c5_witness :
    (pop (push exSys0 3).1).1.blocking = [] ∧
    isInert (pop (push exSys0 3).1).1 5 = true :=
  c5_preservation_single exSys0 5 3 ⟨rfl, rfl, rfl, rfl, rfl⟩ (by decide)
    (by decide) (by decide)

section Mutations

/-- Whether the entry below the current top (the top after an auto-pop), if
any, passes the connectivity check, so that the cascading top recomputation
cannot throw. -/
def prevTopOk (s : Sys) : Bool :=
  match s.blocking.dropLast.getLast? with
  | none => true
  | some t2 => connectedToBody s.doc t2

/-- Helper: removing the last (top) entry of the stack splices it off and
recomputes the top against the remaining last entry. -/
theorem remove_last (s : Sys) (ys : List ElemId) (t : ElemId)
    (hys : s.blocking = ys ++ [t]) (hnd : s.blocking.Nodup) :
    remove s t =
      ((topChanged { s with blocking := ys } ys.getLast?).1, true,
        (topChanged { s with blocking := ys } ys.getLast?).2) := by
  have htys : t ∉ ys := by
    rw [hys, List.nodup_append] at hnd
    intro hm
    exact hnd.2.2 hm (List.mem_singleton.mpr rfl)
  have hfind : s.blocking.findIdx? (· == t) = some ys.length := by
    rw [hys, List.findIdx?_append, findIdx?_beq_of_not_mem ys t htys]
    simp
  have herase : (ys ++ [t]).eraseIdx ys.length = ys := by
    have h1 : ys.length + 1 = (ys ++ [t]).length := by simp
    rw [← List.dropLast_eq_eraseIdx h1]
    exact List.dropLast_concat
  unfold remove
  rw [hfind]
  simp only []
  rw [hys, herase, if_pos rfl]
  rfl

/-- Helper: a record whose removed nodes hit the tracked level element makes
the callback pop the top and return at once. -/
theorem handleMutations_top_removal (s : Sys) (target c : ElemId)
    (hc : trackedChildFor s target = some c) :
    handleMutations s [⟨target, [c], []⟩] = ((pop s).1, (pop s).2.2) := by
  unfold handleMutations
  rw [hc]
  simp only []
  unfold handleRemovedLoop
  rw [if_pos rfl]
  rfl

/-- C8: delivering a mutation record that reports the removal of the tracked
ancestor at some level makes the engine pop the top blocking element, with no
error raised (provided the next entry, if any, is still connected): the stack
loses its last entry and the top reverts to the previously pushed entry, or to
none. -/
theorem c8_auto_pop (s : Sys) (target c : ElemId)
    (hnd : s.blocking.Nodup)
    (hc : trackedChildFor s target = some c)
    (hprev : prevTopOk s = true) :
    (handleMutations s [⟨target, [c], []⟩]).2 = none ∧
    (handleMutations s [⟨target, [c], []⟩]).1.blocking =
      s.blocking.dropLast ∧
    (handleMutations s [⟨target, [c], []⟩]).1.top =
      s.blocking.dropLast.getLast? := by
  rw [handleMutations_top_removal s target c hc]
  rcases hbl : s.blocking.getLast? with _ | t
  · have hb : s.blocking = [] := List.getLast?_eq_none_iff.mp hbl
    have hpop : pop s = (s, none, none) := by
      unfold pop
      have hst : s.top = (none : Option ElemId) := by
        unfold Sys.top
        rw [hb]
        rfl
      rw [hst]
    rw [hpop, hb]
    exact ⟨rfl, rfl, by unfold Sys.top; rw [hb]; rfl⟩
  · obtain ⟨ys, hys⟩ := List.getLast?_eq_some_iff.mp hbl
    have hst : s.top = some t := hbl
    have hpop : pop s =
        ((topChanged { s with blocking := ys } ys.getLast?).1, some t,
          (topChanged { s with blocking := ys } ys.getLast?).2) := by
      unfold pop
      rw [hst]
      simp only []
      rw [remove_last s ys t hys hnd]
    rw [hpop]
    have hdl : s.blocking.dropLast = ys := by
      rw [hys]
      exact List.dropLast_concat
    rw [hdl]
    unfold prevTopOk at hprev
    rw [hdl] at hprev
    have herr : (topChanged { s with blocking := ys } ys.getLast?).2 =
        none := by
      rcases hyl : ys.getLast? with _ | t2
      · rfl
      · rw [hyl] at hprev
        exact topChanged_err_none { s with blocking := ys } t2 hprev
    have hblk := (topChanged_fst_doc { s with blocking := ys }
      ys.getLast?).2
    refine ⟨herr, ?_, ?_⟩
    · rw [hblk]
    · unfold Sys.top
      rw [hblk]

end Mutations

/-- Reference definition following the spec's words for batch processing: the
removed-nodes loop of one record with no early exit — every removed tracked
sibling is un-inerted and dropped from the level's set. -/
def processRemoved (c : ElemId) : Sys → List ElemId → Sys
  | s, [] => s
  | s, sib :: rest =>
    let sibs := (setsGet s c).getD []
    if sib ∈ sibs then
      processRemoved c
        (setsPut (setInert s sib false) c (some (sibs.erase sib))) rest
    else processRemoved c s rest

/-- Reference definition following the spec's words: one record processed in
full — its removed tracked siblings un-inerted and dropped, then its added
inertable siblings inerted or recorded. -/
def recordStep (s : Sys) (m : MRecord) : Sys :=
  match trackedChildFor s m.target with
  | none => s
  | some c =>
    handleAddedLoop (processRemoved c s m.removedNodes) c m.addedNodes

/-- Reference definition following the spec's words (concurrency section):
every record of the batch is processed before yielding. -/
def processAllRecords (s : Sys) (ms : List MRecord) : Sys :=
  ms.foldl recordStep s

/-- Whether a record cannot trigger the auto-pop early return: its tracked
level element resolves and is not among the removed nodes. -/
def recordSafe (s : Sys) (m : MRecord) : Bool :=
  match trackedChildFor s m.target with
  | none => false
  | some c => decide (c ∉ m.removedNodes)

theorem processRemoved_preserves (c : ElemId) :
    ∀ (removed : List ElemId) (s : Sys),
      (processRemoved c s removed).doc = s.doc ∧
      (processRemoved c s removed).topElParents = s.topElParents := by
  intro removed
  induction removed with
  | nil => intro s; exact ⟨rfl, rfl⟩
  | cons sib rest ih =>
    intro s
    unfold processRemoved
    simp only []
    split
    · have h := ih (setsPut (setInert s sib false) c
        (some (((setsGet s c).getD []).erase sib)))
      refine ⟨h.1.trans ?_, h.2.trans ?_⟩ <;> simp
    · exact ih s

theorem handleAddedLoop_preserves (c : ElemId) :
    ∀ (added : List ElemId) (s : Sys),
      (handleAddedLoop s c added).doc = s.doc ∧
      (handleAddedLoop s c added).topElParents = s.topElParents := by
  intro added
  induction added with
  | nil => intro s; exact ⟨rfl, rfl⟩
  | cons sib rest ih =>
    intro s
    unfold handleAddedLoop
    split
    · exact ih s
    · split
      · exact ih _
      · have h := ih (setsPut (setInert s sib true) c
          (some (addUniq ((setsGet (setInert s sib true) c).getD []) sib)))
        refine ⟨h.1.trans ?_, h.2.trans ?_⟩ <;> simp

theorem trackedChildFor_congr (s t : Sys) (h1 : s.doc = t.doc)
    (h2 : s.topElParents = t.topElParents) (target : ElemId) :
    trackedChildFor s target = trackedChildFor t target := by
  unfold trackedChildFor
  rw [h1, h2]

theorem handleRemovedLoop_no_top (c : ElemId) :
    ∀ (removed : List ElemId) (s : Sys), c ∉ removed →
      handleRemovedLoop s c removed =
        (processRemoved c s removed, false, none) := by
  intro removed
  induction removed with
  | nil => intro s _; rfl
  | cons sib rest ih =>
    intro s hc
    have hne : ¬ (sib = c) := fun h => hc (h ▸ List.mem_cons_self sib rest)
    have hrest : c ∉ rest := fun h => hc (List.mem_cons_of_mem sib h)
    unfold handleRemovedLoop processRemoved
    rw [if_neg hne]
    simp only []
    by_cases hmem : sib ∈ (setsGet s c).getD []
    · rw [if_pos hmem, if_pos hmem]
      exact ih _ hrest
    · rw [if_neg hmem, if_neg hmem]
      exact ih s hrest

/-- The state for C9's counterexample: push(1) over the four-element document,
then external code removes element 1 from the body and appends a fresh
element 9 there (both unobserved until the batch is delivered). -/
def c9_state : Sys := docAppend (docDetach (push exSysClean2 1).1 0 1) 0 9

/-- C9 counterexample: the batch holds a record removing the tracked element 1
followed by a record adding the inertable element 9; the engine pops and
returns at the first record, so the second record is never processed: element
9 is neither inerted nor recorded anywhere. -/
theorem c9_counterexample :
    (handleMutations c9_state [⟨0, [1], []⟩, ⟨0, [], [9]⟩]).2 = none ∧
    isInertable c9_state.doc 9 = true ∧
    isInert (handleMutations c9_state [⟨0, [1], []⟩, ⟨0, [], [9]⟩]).1 9 =
      false ∧
    (handleMutations c9_state [⟨0, [1], []⟩, ⟨0, [], [9]⟩]).1.alreadyInert
      = [] ∧
    (handleMutations c9_state [⟨0, [1], []⟩, ⟨0, [], [9]⟩]).1.sets = [] := by
  decide

/-- C9 amended: the engine processes every record of the batch — equal to the
spec's full batch fold — provided no record reports the removal of its level's
tracked element; a record that does triggers the auto-pop and the rest of the
batch is abandoned, as the counterexample shows. -/
theorem c9_amended (s : Sys) (ms : List MRecord)
    (h : ∀ m ∈ ms, recordSafe s m = true) :
    handleMutations s ms = (processAllRecords s ms, none) := by
  induction ms generalizing s with
  | nil => rfl
  | cons m rest ih =>
    have hm := h m (List.mem_cons_self m rest)
    unfold recordSafe at hm
    rcases htc : trackedChildFor s m.target with _ | c
    · rw [htc] at hm
      simp at hm
    · rw [htc] at hm
      have hcnot : c ∉ m.removedNodes := by simpa using hm
      unfold handleMutations
      rw [htc]
      simp only []
      rw [handleRemovedLoop_no_top c m.removedNodes s hcnot]
      rw [if_neg (by simp)]
      have hnext : ∀ m2 ∈ rest,
          recordSafe (handleAddedLoop (processRemoved c s m.removedNodes) c
            m.addedNodes) m2 = true := by
        intro m2 hm2
        have hd : (handleAddedLoop (processRemoved c s m.removedNodes) c
            m.addedNodes).doc = s.doc :=
          (handleAddedLoop_preserves c m.addedNodes _).1.trans
            (processRemoved_preserves c m.removedNodes s).1
        have hp : (handleAddedLoop (processRemoved c s m.removedNodes) c
            m.addedNodes).topElParents = s.topElParents :=
          (handleAddedLoop_preserves c m.addedNodes _).2.trans
            (processRemoved_preserves c m.removedNodes s).2
        unfold recordSafe
        rw [trackedChildFor_congr _ s hd hp]
        have := h m2 (List.mem_cons_of_mem m hm2)
        unfold recordSafe at this
        exact this
      rw [ih _ hnext]
      have hfold : processAllRecords s (m :: rest) =
          processAllRecords (recordStep s m) rest := rfl
      rw [hfold]
      have hrs : recordStep s m =
          handleAddedLoop (processRemoved c s m.removedNodes) c
            m.addedNodes := by
        unfold recordStep
        rw [htc]
      rw [hrs]

/-- Witness for `c9_amended`: a batch over the stack-[1] state that only adds
element 9 under the body is processed completely. -/
theorem c9_witness :
    handleMutations (push exSysClean2 1).1 [⟨0, [], [9]⟩] =
      (processAllRecords (push exSysClean2 1).1 [⟨0, [], [9]⟩], none) :=
  c9_amended (push exSysClean2 1).1 [⟨0, [], [9]⟩] (by decide)

section NonInertable

/-- Well-formedness of the side tables: every element recorded in some level's
`_siblingsToRestore` set is inertable.  The engine establishes this itself
(every addition to a set is guarded by the inertable check); a fresh engine
satisfies it trivially. -/
def WFSets (s : Sys) : Prop :=
  ∀ el l, setsGet s el = some l → ∀ x ∈ l, isInertable s.doc x = true

theorem wfsets_of_sets_nil (s : Sys) (h : s.sets = []) : WFSets s := by
  intro el l hget
  unfold setsGet at hget
  rw [h] at hget
  cases hget

theorem WFSets_of_eq (s t : Sys) (h1 : t.sets = s.sets) (h2 : t.doc = s.doc)
    (h : WFSets s) : WFSets t := by
  intro el l hget x hx
  rw [h2]
  refine h el l ?_ x hx
  unfold setsGet at hget ⊢
  rw [h1] at hget
  exact hget

theorem lookup_filter_self {α : Type} (l : List (ElemId × α)) (a : ElemId) :
    (l.filter (fun p => p.1 != a)).lookup a = none := by
  induction l with
  | nil => rfl
  | cons hd tl ih =>
    by_cases h : hd.1 = a
    · have hf : (hd.1 != a) = false := by simp [h]
      simp only [List.filter_cons, hf, Bool.false_eq_true, if_false]
      exact ih
    · have hf : (hd.1 != a) = true := by simp [h]
      simp only [List.filter_cons, hf, if_true]
      rw [show hd = (hd.1, hd.2) from rfl, List.lookup_cons]
      have hne : (a == hd.1) = false := by
        rw [beq_eq_false_iff_ne]
        exact fun he => h he.symm
      rw [hne]
      exact ih

theorem WFSets_setsPut_some (s : Sys) (el : ElemId) (l2 : List ElemId)
    (h : WFSets s) (hl : ∀ x ∈ l2, isInertable s.doc x = true) :
    WFSets (setsPut s el (some l2)) := by
  intro e l hget x hx
  by_cases he : e = el
  · subst he
    rw [setsGet_setsPut_self_some] at hget
    cases hget
    exact hl x hx
  · rw [setsGet_setsPut_other _ _ _ _ he] at hget
    exact h e l hget x hx

theorem WFSets_setsPut_none (s : Sys) (el : ElemId) (h : WFSets s) :
    WFSets (setsPut s el none) := by
  intro e l hget x hx
  by_cases he : e = el
  · subst he
    unfold setsPut setsGet at hget
    simp only [] at hget
    rw [lookup_filter_self] at hget
    cases hget
  · rw [setsGet_setsPut_other _ _ _ _ he] at hget
    exact h e l hget x hx

theorem scanChildren_flag_noninertable (el : ElemId)
    (ts : Option (List ElemId)) (k : Bool) :
    ∀ (children : List ElemId) (s : Sys) (inerted : List ElemId)
      (x : ElemId), isInertable s.doc x = false →
      isInert (scanChildren el ts k s children inerted).1 x = isInert s x := by
  intro children
  induction children with
  | nil => intro s inerted x _; rfl
  | cons c rest ih =>
    intro s inerted x hx
    unfold scanChildren
    split
    · exact ih s inerted x hx
    · split
      · exact ih _ inerted x hx
      · rename_i hguard hkeep
        push_neg at hguard
        have hcin : isInertable s.doc c = true := by
          simpa using hguard.2.1
        have hxc : x ≠ c := fun h => by
          rw [h, hcin] at hx
          cases hx
        have hrec := ih (setInert s c true) (inerted ++ [c]) x
          (by rw [setInert_doc]; exact hx)
        rw [hrec, isInert_setInert_other s c x true hxc]

theorem scanChildren_rec_inertable (el : ElemId)
    (ts : Option (List ElemId)) (k : Bool) :
    ∀ (children : List ElemId) (s : Sys) (inerted : List ElemId)
      (x : ElemId), x ∈ (scanChildren el ts k s children inerted).2 →
      x ∈ inerted ∨ isInertable s.doc x = true := by
  intro children
  induction children with
  | nil => intro s inerted x hx; exact Or.inl hx
  | cons c rest ih =>
    intro s inerted x hx
    unfold scanChildren at hx
    split at hx
    · exact ih s inerted x hx
    · split at hx
      · exact ih { s with alreadyInert := addUniq s.alreadyInert c }
          inerted x hx
      · rename_i hguard hkeep
        push_neg at hguard
        have hcin : isInertable s.doc c = true := by
          simpa using hguard.2.1
        rcases ih (setInert s c true) (inerted ++ [c]) x hx with h | h
        · rcases List.mem_append.mp h with h2 | h2
          · exact Or.inl h2
          · rw [List.mem_singleton] at h2
            subst h2
            exact Or.inr hcin
        · exact Or.inr h

theorem inertSiblingsStep_flag_wf (ts : Option (List ElemId)) (k : Bool)
    (s : Sys) (el x : ElemId) (hwf : WFSets s)
    (hx : isInertable s.doc x = false) :
    isInert (inertSiblingsStep ts k s el) x = isInert s x ∧
    WFSets (inertSiblingsStep ts k s el) := by
  constructor
  · unfold inertSiblingsStep
    rw [isInert_moAdd, isInert_setsPut]
    exact scanChildren_flag_noninertable el ts k _ s [] x hx
  · unfold inertSiblingsStep
    have hpres := scanChildren_preserves el ts k (siblingsScan s.doc el) s []
    have hwf1 : WFSets (scanChildren el ts k s (siblingsScan s.doc el) []).1 :=
      WFSets_of_eq s _ hpres.2.2.2.1 hpres.1 hwf
    have hrec : ∀ y ∈ (scanChildren el ts k s (siblingsScan s.doc el) []).2,
        isInertable (scanChildren el ts k s
          (siblingsScan s.doc el) []).1.doc y = true := by
      intro y hy
      rcases scanChildren_rec_inertable el ts k _ s [] y hy with h | h
      · cases h
      · rw [hpres.1]
        exact h
    have hwf2 := WFSets_setsPut_some _ el _ hwf1 hrec
    exact WFSets_of_eq _ _ rfl rfl hwf2

theorem inertSiblings_flag_wf (ts : Option (List ElemId)) (k : Bool) :
    ∀ (els : List ElemId) (s : Sys) (x : ElemId), WFSets s →
      isInertable s.doc x = false →
      isInert (inertSiblings s els ts k) x = isInert s x ∧
      WFSets (inertSiblings s els ts k) := by
  intro els
  induction els with
  | nil => intro s x hwf _; exact ⟨rfl, hwf⟩
  | cons el rest ih =>
    intro s x hwf hx
    unfold inertSiblings
    have hstep := inertSiblingsStep_flag_wf ts k s el x hwf hx
    have hdoc := (inertSiblingsStep_preserves ts k s el).1
    have hnext := ih (inertSiblingsStep ts k s el) x hstep.2
      (by rw [hdoc]; exact hx)
    exact ⟨hnext.1.trans hstep.1, hnext.2⟩

theorem uninertAll_flag_notmem (s : Sys) (l : List ElemId) (x : ElemId)
    (hx : x ∉ l) : isInert (uninertAll s l) x = isInert s x := by
  rw [uninertAll_isInert]
  have : decide (x ∈ l) = false := by simpa using hx
  rw [this]
  simp

theorem restoreOne_flag_wf (s : Sys) (el x : ElemId) (hwf : WFSets s)
    (hx : isInertable s.doc x = false) :
    isInert (restoreOne s el) x = isInert s x ∧ WFSets (restoreOne s el) := by
  constructor
  · unfold restoreOne
    rw [isInert_setsPut]
    have hnot : x ∉ (setsGet (moRemove s el) el).getD [] := by
      rcases hg : setsGet s el with _ | l
      · rw [show setsGet (moRemove s el) el = setsGet s el from rfl, hg]
        simp
      · rw [show setsGet (moRemove s el) el = setsGet s el from rfl, hg]
        intro hm
        have := hwf el l hg x hm
        rw [this] at hx
        cases hx
    rw [uninertAll_flag_notmem _ _ x hnot]
    rfl
  · have hwf2 : WFSets (setsPut s el none) := WFSets_setsPut_none s el hwf
    refine WFSets_of_eq (setsPut s el none) _ ?_ ?_ hwf2
    · rw [restoreOne_sets]
      unfold setsPut
      rfl
    · rw [(restoreOne_preserves s el).1]
      rfl

theorem restore_flag_wf :
    ∀ (els : List ElemId) (s : Sys) (x : ElemId), WFSets s →
      isInertable s.doc x = false →
      isInert (restoreInertedSiblings s els) x = isInert s x ∧
      WFSets (restoreInertedSiblings s els) := by
  intro els
  induction els with
  | nil => intro s x hwf _; exact ⟨rfl, hwf⟩
  | cons el rest ih =>
    intro s x hwf hx
    unfold restoreInertedSiblings
    have hstep := restoreOne_flag_wf s el x hwf hx
    have hdoc := (restoreOne_preserves s el).1
    have hnext := ih (restoreOne s el) x hstep.2 (by rw [hdoc]; exact hx)
    exact ⟨hnext.1.trans hstep.1, hnext.2⟩

theorem swap_flag_wf (s : Sys) (a b x : ElemId) (hwf : WFSets s)
    (hx : isInertable s.doc x = false) :
    isInert (swapInertedSibling s a b) x = isInert s x ∧
    WFSets (swapInertedSibling s a b) := by
  have hstr : ∀ y ∈ (setsGet s a).getD [], isInertable s.doc y = true := by
    rcases hg : setsGet s a with _ | l
    · simp
    · intro y hy
      exact hwf a l hg y (by simpa using hy)
  unfold swapInertedSibling
  simp only []
  by_cases h1 : isInertable s.doc a = true ∧ isInert s a = false
  · -- a was inerted and recorded
    rw [if_pos h1]
    have hxa : x ≠ a := fun h => by
      rw [h, h1.1] at hx
      cases hx
    have hstr1 : ∀ y ∈ addUniq ((setsGet s a).getD []) a,
        isInertable s.doc y = true := by
      intro y hy
      unfold addUniq at hy
      split at hy
      · exact hstr y hy
      · rcases List.mem_append.mp hy with h2 | h2
        · exact hstr y h2
        · rw [List.mem_singleton] at h2
          subst h2
          exact h1.1
    by_cases h2 : b ∈ addUniq ((setsGet s a).getD []) a
    · rw [if_pos h2]
      have hxb : x ≠ b := fun h => by
        rw [← h] at h2
        have := hstr1 x h2
        rw [this] at hx
        cases hx
      constructor
      · simp only [isInert_setsPut, isInert_moAdd, isInert_moRemove]
        split <;>
          simp [isInert_setInert_other _ b x false hxb,
            isInert_setInert_other _ a x true hxa]
      · have hsub : ∀ y ∈ (addUniq ((setsGet s a).getD []) a).erase b,
            isInertable s.doc y = true := fun y hy =>
          hstr1 y (List.mem_of_mem_erase hy)
        split <;>
        · apply WFSets_of_eq _
            (setsPut (setsPut s b
              (some ((addUniq ((setsGet s a).getD []) a).erase b))) a none)
            rfl rfl
          exact WFSets_setsPut_none _ a
            (WFSets_setsPut_some _ b _ hwf hsub)
    · rw [if_neg h2]
      constructor
      · simp only [isInert_setsPut, isInert_moAdd, isInert_moRemove]
        split <;> simp [isInert_setInert_other _ a x true hxa]
      · split <;>
        · apply WFSets_of_eq _
            (setsPut (setsPut s b
              (some (addUniq ((setsGet s a).getD []) a))) a none)
            rfl rfl
          exact WFSets_setsPut_none _ a
            (WFSets_setsPut_some _ b _ hwf hstr1)
  · -- a untouched
    rw [if_neg h1]
    by_cases h2 : b ∈ (setsGet s a).getD []
    · rw [if_pos h2]
      have hxb : x ≠ b := fun h => by
        rw [← h] at h2
        have := hstr x h2
        rw [this] at hx
        cases hx
      constructor
      · simp only [isInert_setsPut, isInert_moAdd, isInert_moRemove]
        split <;> simp [isInert_setInert_other _ b x false hxb]
      · have hsub : ∀ y ∈ ((setsGet s a).getD []).erase b,
            isInertable s.doc y = true := fun y hy =>
          hstr y (List.mem_of_mem_erase hy)
        split <;>
        · apply WFSets_of_eq _
            (setsPut (setsPut s b
              (some (((setsGet s a).getD []).erase b))) a none)
            rfl rfl
          exact WFSets_setsPut_none _ a
            (WFSets_setsPut_some _ b _ hwf hsub)
    · rw [if_neg h2]
      constructor
      · simp only [isInert_setsPut, isInert_moAdd, isInert_moRemove]
        split <;> rfl
      · split <;>
        · apply WFSets_of_eq _
            (setsPut (setsPut s b (some ((setsGet s a).getD []))) a none)
            rfl rfl
          exact WFSets_setsPut_none _ a
            (WFSets_setsPut_some _ b _ hwf hstr)

/-- Inertability depends only on the tag table. -/
theorem isInertable_congr_tagA (d1 d2 : Doc) (x : ElemId)
    (h : d1.tagA = d2.tagA) : isInertable d1 x = isInertable d2 x := by
  unfold isInertable Doc.localName
  rw [h]

theorem mem_addUniq (l : List ElemId) (e y : ElemId)
    (h : y ∈ addUniq l e) : y ∈ l ∨ y = e := by
  unfold addUniq at h
  split at h
  · exact Or.inl h
  · rcases List.mem_append.mp h with h2 | h2
    · exact Or.inl h2
    · exact Or.inr (List.mem_singleton.mp h2)

/-- The invariant carried through every engine step, for a fixed non-inertable
element `x`: its flag equals its original value, the side tables stay
well-formed, and the tag table is unchanged. -/
def FlagWF (s0 : Sys) (x : ElemId) (t : Sys) : Prop :=
  isInert t x = isInert s0 x ∧ WFSets t ∧ t.doc.tagA = s0.doc.tagA

theorem FlagWF_start (s0 : Sys) (x : ElemId) (hwf : WFSets s0) :
    FlagWF s0 x s0 := ⟨rfl, hwf, rfl⟩

theorem FlagWF_hx (s0 t : Sys) (x : ElemId) (h : FlagWF s0 x t)
    (hx : isInertable s0.doc x = false) : isInertable t.doc x = false := by
  rw [isInertable_congr_tagA t.doc s0.doc x h.2.2]
  exact hx

theorem FlagWF_of_eq (s0 t u : Sys) (x : ElemId) (h : FlagWF s0 x t)
    (h1 : u.inerts = t.inerts) (h2 : u.sets = t.sets) (h3 : u.doc = t.doc) :
    FlagWF s0 x u := by
  refine ⟨?_, ?_, ?_⟩
  · unfold isInert
    rw [h1]
    exact h.1
  · exact WFSets_of_eq t u h2 h3 h.2.1
  · rw [h3]
    exact h.2.2

theorem FlagWF_swap (s0 t : Sys) (a b x : ElemId)
    (hx : isInertable s0.doc x = false) (h : FlagWF s0 x t) :
    FlagWF s0 x (swapInertedSibling t a b) := by
  have hres := swap_flag_wf t a b x h.2.1 (FlagWF_hx s0 t x h hx)
  exact ⟨hres.1.trans h.1, hres.2,
    (congrArg Doc.tagA (swapInertedSibling_preserves t a b).1).trans h.2.2⟩

theorem FlagWF_restore (s0 t : Sys) (els : List ElemId) (x : ElemId)
    (hx : isInertable s0.doc x = false) (h : FlagWF s0 x t) :
    FlagWF s0 x (restoreInertedSiblings t els) := by
  have hres := restore_flag_wf els t x h.2.1 (FlagWF_hx s0 t x h hx)
  exact ⟨hres.1.trans h.1, hres.2,
    (congrArg Doc.tagA (restoreInertedSiblings_preserves els t).1).trans
      h.2.2⟩

theorem FlagWF_inertSiblings (s0 t : Sys) (els : List ElemId)
    (ts : Option (List ElemId)) (k : Bool) (x : ElemId)
    (hx : isInertable s0.doc x = false) (h : FlagWF s0 x t) :
    FlagWF s0 x (inertSiblings t els ts k) := by
  have hres := inertSiblings_flag_wf ts k els t x h.2.1 (FlagWF_hx s0 t x h hx)
  exact ⟨hres.1.trans h.1, hres.2,
    (congrArg Doc.tagA (inertSiblings_preserves ts k els t).1).trans h.2.2⟩

theorem FlagWF_ite (s0 : Sys) (x : ElemId) (c : Prop) [Decidable c]
    (t1 t2 : Sys) (h1 : FlagWF s0 x t1) (h2 : FlagWF s0 x t2) :
    FlagWF s0 x (if c then t1 else t2) := by
  split
  · exact h1
  · exact h2

theorem FlagWF_topChanged (s0 t : Sys) (nt : Option ElemId) (x : ElemId)
    (hx : isInertable s0.doc x = false) (h : FlagWF s0 x t) :
    FlagWF s0 x (topChanged t nt).1 := by
  cases nt with
  | none =>
    have hres := FlagWF_restore s0 t t.topElParents x hx h
    exact FlagWF_of_eq s0 _ _ x hres rfl rfl rfl
  | some e =>
    unfold topChanged
    simp only []
    split
    · exact h
    · split
      · exact h
      · have hs1 : FlagWF s0 x { t with topElParents := getParents t.doc e } :=
          FlagWF_of_eq s0 t _ x h rfl rfl rfl
        split
        · exact FlagWF_inertSiblings s0 _ _ _ _ x hx hs1
        · apply FlagWF_ite
          · apply FlagWF_inertSiblings s0 _ _ _ _ x hx
            apply FlagWF_ite
            · apply FlagWF_restore s0 _ _ x hx
              apply FlagWF_ite
              · exact FlagWF_swap s0 _ _ _ x hx hs1
              · exact hs1
            · apply FlagWF_ite
              · exact FlagWF_swap s0 _ _ _ x hx hs1
              · exact hs1
          · apply FlagWF_ite
            · apply FlagWF_restore s0 _ _ x hx
              apply FlagWF_ite
              · exact FlagWF_swap s0 _ _ _ x hx hs1
              · exact hs1
            · apply FlagWF_ite
              · exact FlagWF_swap s0 _ _ _ x hx hs1
              · exact hs1

theorem FlagWF_remove (s0 t : Sys) (e x : ElemId)
    (hx : isInertable s0.doc x = false) (h : FlagWF s0 x t) :
    FlagWF s0 x (remove t e).1 := by
  unfold remove
  cases hf : t.blocking.findIdx? (· == e) with
  | none => exact h
  | some i =>
    simp only []
    have ht1 : FlagWF s0 x { t with blocking := t.blocking.eraseIdx i } :=
      FlagWF_of_eq s0 t _ x h rfl rfl rfl
    split
    · exact FlagWF_topChanged s0 _ _ x hx ht1
    · exact ht1

theorem FlagWF_push (s0 t : Sys) (e x : ElemId)
    (hx : isInertable s0.doc x = false) (h : FlagWF s0 x t) :
    FlagWF s0 x (push t e).1 := by
  unfold push
  by_cases htp : t.top = some e
  · rw [if_pos htp]
    exact h
  · rw [if_neg htp]
    simp only []
    rcases hr : remove t e with ⟨t1, b1, err1⟩
    have h1 : FlagWF s0 x t1 := by
      have := FlagWF_remove s0 t e x hx h
      rw [hr] at this
      exact this
    cases err1 with
    | some m => exact h1
    | none =>
      simp only []
      rcases htc : topChanged t1 (some e) with ⟨t2, err2⟩
      have h2 : FlagWF s0 x t2 := by
        have := FlagWF_topChanged s0 t1 (some e) x hx h1
        rw [htc] at this
        exact this
      cases err2 with
      | some m => exact h2
      | none => exact FlagWF_of_eq s0 t2 _ x h2 rfl rfl rfl

theorem FlagWF_pop (s0 t : Sys) (x : ElemId)
    (hx : isInertable s0.doc x = false) (h : FlagWF s0 x t) :
    FlagWF s0 x (pop t).1 := by
  unfold pop
  cases htp : t.top with
  | none => exact h
  | some tt =>
    simp only []
    exact FlagWF_remove s0 t tt x hx h

theorem FlagWF_handleRemovedLoop (s0 : Sys) (c x : ElemId)
    (hx : isInertable s0.doc x = false) :
    ∀ (removed : List ElemId) (t : Sys), FlagWF s0 x t →
      FlagWF s0 x (handleRemovedLoop t c removed).1 := by
  intro removed
  induction removed with
  | nil => intro t h; exact h
  | cons sib rest ih =>
    intro t h
    unfold handleRemovedLoop
    split
    · exact FlagWF_pop s0 t x hx h
    · simp only []
      split
      · rename_i hmem
        apply ih
        rcases hg : setsGet t c with _ | l
        · rw [hg] at hmem
          simp at hmem
        · rw [hg] at hmem
          have hmem2 : sib ∈ l := by simpa using hmem
          have hsib : isInertable s0.doc sib = true := by
            have h2 := h.2.1 c l hg sib hmem2
            rw [isInertable_congr_tagA t.doc s0.doc sib h.2.2] at h2
            exact h2
          have hxs : x ≠ sib := fun he => by
            rw [he, hsib] at hx
            cases hx
          refine ⟨?_, ?_, ?_⟩
          · rw [isInert_setsPut, isInert_setInert_other t sib x false hxs]
            exact h.1
          · apply WFSets_setsPut_some
            · exact WFSets_of_eq t _ rfl rfl h.2.1
            · intro y hy
              have hy2 : y ∈ l := List.mem_of_mem_erase (by simpa using hy)
              have := h.2.1 c l hg y hy2
              simpa using this
          · exact h.2.2
      · exact ih t h

theorem FlagWF_handleAddedLoop (s0 : Sys) (c x : ElemId)
    (hx : isInertable s0.doc x = false) :
    ∀ (added : List ElemId) (t : Sys), FlagWF s0 x t →
      FlagWF s0 x (handleAddedLoop t c added) := by
  intro added
  induction added with
  | nil => intro t h; exact h
  | cons sib rest ih =>
    intro t h
    unfold handleAddedLoop
    split
    · exact ih t h
    · split
      · exact ih _ (FlagWF_of_eq s0 t _ x h rfl rfl rfl)
      · rename_i hguard hflag
        have hsib : isInertable s0.doc sib = true := by
          have : ¬ (isInertable t.doc sib = false) := hguard
          rw [isInertable_congr_tagA t.doc s0.doc sib h.2.2] at this
          simpa using this
        have hxs : x ≠ sib := fun he => by
          rw [he, hsib] at hx
          cases hx
        apply ih
        refine ⟨?_, ?_, ?_⟩
        · rw [isInert_setsPut, isInert_setInert_other t sib x true hxs]
          exact h.1
        · apply WFSets_setsPut_some
          · exact WFSets_of_eq t _ rfl rfl h.2.1
          · intro y hy
            have hy0 : y ∈ addUniq ((setsGet t c).getD []) sib := by
              simpa using hy
            show isInertable t.doc y = true
            rcases mem_addUniq _ _ y hy0 with h2 | h2
            · rcases hg : setsGet t c with _ | l
              · rw [hg] at h2
                simp at h2
              · rw [hg] at h2
                exact h.2.1 c l hg y (by simpa using h2)
            · subst h2
              rw [isInertable_congr_tagA t.doc s0.doc y h.2.2]
              exact hsib
        · exact h.2.2

theorem FlagWF_handleMutations (s0 : Sys) (x : ElemId)
    (hx : isInertable s0.doc x = false) :
    ∀ (ms : List MRecord) (t : Sys), FlagWF s0 x t →
      FlagWF s0 x (handleMutations t ms).1 := by
  intro ms
  induction ms with
  | nil => intro t h; exact h
  | cons m rest ih =>
    intro t h
    unfold handleMutations
    cases htc : trackedChildFor t m.target with
    | none => exact h
    | some c =>
      simp only []
      rcases hr : handleRemovedLoop t c m.removedNodes with ⟨t1, stop, err⟩
      have h1 : FlagWF s0 x t1 := by
        have := FlagWF_handleRemovedLoop s0 c x hx m.removedNodes t h
        rw [hr] at this
        exact this
      cases stop with
      | true => exact h1
      | false =>
        simp only []
        exact ih _ (FlagWF_handleAddedLoop s0 c x hx m.addedNodes t1 h1)

theorem FlagWF_stepOp (s0 t : Sys) (op : Op) (x : ElemId)
    (hx : isInertable s0.doc x = false) (h : FlagWF s0 x t) :
    FlagWF s0 x (stepOp t op) := by
  cases op with
  | opPush e => exact FlagWF_push s0 t e x hx h
  | opRemove e => exact FlagWF_remove s0 t e x hx h
  | opPop => exact FlagWF_pop s0 t x hx h
  | opMutations ms => exact FlagWF_handleMutations s0 x hx ms t h
  | opDetach p c =>
    refine ⟨h.1, ?_, h.2.2⟩
    intro el l hget y hy
    have h2 := h.2.1 el l hget y hy
    exact (isInertable_congr_tagA (docDetach t p c).doc t.doc y rfl).trans h2
  | opAppend p c =>
    refine ⟨h.1, ?_, h.2.2⟩
    intro el l hget y hy
    have h2 := h.2.1 el l hget y hy
    exact (isInertable_congr_tagA (docAppend t p c).doc t.doc y rfl).trans h2

theorem FlagWF_run (s0 : Sys) (x : ElemId)
    (hx : isInertable s0.doc x = false) :
    ∀ (ops : List Op) (t : Sys), FlagWF s0 x t →
      FlagWF s0 x (run t ops) := by
  intro ops
  induction ops with
  | nil => intro t h; exact h
  | cons op rest ih =>
    intro t h
    exact ih (stepOp t op) (FlagWF_stepOp s0 t op x hx h)

end NonInertable

/-- A document with a style element: body 0 with children 1, 2 and 6, where
element 6 is a style tag; element 1 contains element 3. -/
def exDoc3 : Doc :=
  { body := 0
    childrenA := [(0, [1, 2, 6]), (1, [3])]
    parentA := [(1, 0), (2, 0), (3, 1), (6, 0)]
    tagA := [(6, "style")]
    nonElems := []
    hostA := []
    assignedSlotA := []
    dipA := []
    shadowRootA := []
    slotsA := []
    assignedA := []
    contentsA := []
    distNodesA := []
    fuel := 10 }

/-- A pristine engine over `exDoc3`. -/
def c7_state : Sys :=
  { doc := exDoc3, inerts := [], blocking := [], topElParents := [],
    alreadyInert := [], sets := [], mo := [] }

/-- C7: no sequence of engine operations (push, remove, pop, delivered
mutation batches) or external DOM edits ever changes the inert flag of an
element whose tag is style, template or script, starting from any state whose
side tables are well-formed (e.g. a fresh engine): non-inertable elements are
skipped in every sibling scan and every mutation-addition path, and they can
never enter a restore set. -/
theorem c7_non_inertable_untouched (s : Sys) (ops : List Op) (x : ElemId)
    (hwf : WFSets s) (hx : isInertable s.doc x = false) :
    isInert (run s ops) x = isInert s x :=
  (FlagWF_run s x hx ops s (FlagWF_start s x hwf)).1

/-- Witness for `c7_non_inertable_untouched`: pushing element 1 over the
document with the style element 6 leaves 6's flag untouched while its sibling
2 does get inerted. -/
theorem c7_witness :
    isInert (run c7_state [Op.opPush 1]) 6 = isInert c7_state 6 :=
  c7_non_inertable_untouched c7_state [Op.opPush 1] 6
    (wfsets_of_sets_nil c7_state rfl) (by decide)

/-- The state for the C8 witness: stack [3, 4] over the six-element document,
with the tracked parents of top element 4. -/
def c8_state : Sys := (push (push exSys0 3).1 4).1

/-- Witness for `c8_auto_pop`: a record on observed parent 2 removing the
tracked level element 4 pops the top; the stack reverts to [3]. -/
theorem c8_witness :
    (handleMutations c8_state [⟨2, [4], []⟩]).2 = none ∧
    (handleMutations c8_state [⟨2, [4], []⟩]).1.blocking =
      c8_state.blocking.dropLast ∧
    (handleMutations c8_state [⟨2, [4], []⟩]).1.top =
      c8_state.blocking.dropLast.getLast? :=
  c8_auto_pop c8_state 2 4 (by decide) (by decide) (by decide)

/-- The state used by the C10 witness: push(3) then push(4) from a pristine
engine, so the stack is [3, 4] with 3 below the top. -/
def c10_state : Sys := (push (push exSysClean 3).1 4).1

/-- Witness for `c10_move_to_top` at the concrete state with stack [3, 4]. -/
theorem c10_witness :
    ((push c10_state 3).2 = none ∧
     (push c10_state 3).1.top = some 3 ∧
     (push c10_state 3).1.blocking = c10_state.blocking.eraseIdx 0 ++ [3] ∧
     (push c10_state 3).1.blocking.Nodup) ∧
    variantPush [3, 4] 3 = ([3, 4], true) :=
  ⟨(c10_move_to_top c10_state 3 0 (by decide) (by decide) (by decide)
      (by decide)).1,
   (c10_move_to_top c10_state 3 0 (by decide) (by decide) (by decide)
      (by decide)).2 [3, 4] 3 (by decide)⟩

end BlockingElements
